import Mathlib

/-!
Verification development for the scraping engine in scrapperIptv.py.

The Python program is shallowly embedded: strings are modelled as Lean
strings (lists of characters), parsed HTML documents as a tree type
Node, and every Python string primitive used by the program (find,
index, in, replace, strip, slicing) is given an executable Lean model
with the exact left-to-right semantics of the Python operation.
-/

/-! Models of Python string primitives, on lists of characters. -/

/-- Boolean prefix test, matching only on the first list so that its
equations reduce without inspecting the second. -/
def isPre : List Char → List Char → Bool
  | [], _ => true
  | a :: as, bs =>
    match bs with
    | [] => false
    | b :: bs2 => a == b && isPre as bs2

/-- Model of Python str.find: index of the first occurrence of the
needle in the haystack, none when absent. Python .index has the same
search semantics but raises instead of returning a sentinel. -/
def pyFind (needle : List Char) : List Char → Option Nat
  | [] => if isPre needle [] then some 0 else none
  | c :: t =>
    if isPre needle (c :: t) then some 0
    else (pyFind needle t).map (· + 1)

/-- Model of the Python membership test needle in haystack. -/
def containsSub (needle hay : List Char) : Bool :=
  (pyFind needle hay).isSome

/-- String-level wrapper of containsSub. -/
def containsSubS (needle hay : String) : Bool :=
  containsSub needle.data hay.data

/-- Worker for removeAll: skip counts characters of a matched
occurrence that remain to be consumed without being emitted. -/
def removeAllGo (old : List Char) : Nat → List Char → List Char
  | _, [] => []
  | skip + 1, _ :: t => removeAllGo old skip t
  | 0, c :: t =>
    if !old.isEmpty && isPre old (c :: t) then
      removeAllGo old (old.length - 1) t
    else
      c :: removeAllGo old 0 t

/-- Model of Python s.replace(old, two quotes): delete the
left-to-right non-overlapping occurrences of old from s. With an empty
old the Python call returns s unchanged, as does this model. -/
def removeAll (s old : List Char) : List Char :=
  removeAllGo old 0 s

/-- Characters removed by Python str.strip with no argument are
modelled by Char.isWhitespace. -/
def stripEnd (l : List Char) : List Char :=
  (l.reverse.dropWhile Char.isWhitespace).reverse

/-- Model of Python str.strip with no argument. -/
def pyStrip (l : List Char) : List Char :=
  stripEnd (l.dropWhile Char.isWhitespace)

/-- String-level wrapper of pyStrip. -/
def pyStripS (s : String) : String := ⟨pyStrip s.data⟩

/-- Model of the Python slice s[i:j] with full negative-index
normalisation, as used by the DaddyLive title computation where the
end bound can be the integer minus one. -/
def pySlice (l : List Char) (i j : Int) : List Char :=
  let n : Int := l.length
  let i0 : Int := if i < 0 then max (n + i) 0 else min i n
  let j0 : Int := if j < 0 then max (n + j) 0 else min j n
  (l.take j0.toNat).drop i0.toNat

/-- Model of Python str.split with no argument: whitespace-separated
tokens, empty tokens dropped. The first argument accumulates the
current token in reverse. -/
def tokensWsGo (acc : List Char) : List Char → List String
  | [] => if acc = [] then [] else [⟨acc.reverse⟩]
  | c :: t =>
    if c.isWhitespace then
      if acc = [] then tokensWsGo [] t
      else ⟨acc.reverse⟩ :: tokensWsGo [] t
    else tokensWsGo (c :: acc) t

/-- Whitespace-separated tokens of a string, as Python str.split. -/
def tokensWs (l : List Char) : List String := tokensWsGo [] l

/-- One list is a contiguous segment of another. -/
def InfixOf (a b : List Char) : Prop := ∃ p q, b = p ++ a ++ q

/-! The parsed-document model. An HTML document handed to the
extractors is a tree of elements (tag, attribute list, children) and
text leaves, the shape BeautifulSoup exposes to the program. -/

inductive Node where
  | text : String → Node
  | elem : String → List (String × String) → List Node → Node
deriving Repr

mutual
/-- Model of BeautifulSoup get_text: concatenation of every descendant
text leaf, in document order, as a character list. -/
def textOf : Node → List Char
  | .text s => s.data
  | .elem _ _ cs => textOfL cs

/-- Concatenated text of a list of sibling nodes. -/
def textOfL : List Node → List Char
  | [] => []
  | c :: cs => textOf c ++ textOfL cs
end

/-- String form of textOf. -/
def textOfS (n : Node) : String := ⟨textOf n⟩

/-- Attribute lookup on an element, none for text leaves or missing
attributes, as tag.get(key) with no default. -/
def getAttr (n : Node) (key : String) : Option String :=
  match n with
  | .text _ => none
  | .elem _ attrs _ => (attrs.find? (fun a => a.1 = key)).map (·.2)

/-- The node is an element with the given tag name. -/
def tagP (t : String) (n : Node) : Bool :=
  match n with
  | .elem tg _ _ => tg = t
  | .text _ => false

/-- The node is an element whose class attribute, split on whitespace
as BeautifulSoup does for multi-valued attributes, contains the given
token. -/
def classTokP (tok : String) (n : Node) : Bool :=
  match getAttr n "class" with
  | none => false
  | some v => (tokensWs v.data).contains tok

mutual
/-- All nodes in the subtree rooted at the node, the node included,
that satisfy the predicate, in document (preorder) order. -/
def findAllFrom (p : Node → Bool) : Node → List Node
  | .text s => if p (.text s) then [.text s] else []
  | .elem t a cs =>
    (if p (.elem t a cs) then [Node.elem t a cs] else []) ++ findAllFromL p cs

/-- findAllFrom over a list of sibling subtrees. -/
def findAllFromL (p : Node → Bool) : List Node → List Node
  | [] => []
  | c :: cs => findAllFrom p c ++ findAllFromL p cs
end

/-- Model of tag.find_all(...): matching strict descendants of the
node, in document order. -/
def findAll (p : Node → Bool) (n : Node) : List Node :=
  match n with
  | .text _ => []
  | .elem _ _ cs => findAllFromL p cs

/-- Model of tag.find(...): the first matching strict descendant. -/
def findFirst (p : Node → Bool) (n : Node) : Option Node :=
  (findAll p n).head?

/-- Attribute rendering inside an opening tag, in stored order. -/
def renderAttrs : List (String × String) → String
  | [] => ""
  | a :: rest => " " ++ a.1 ++ "=" ++ "\"" ++ a.2 ++ "\"" ++ renderAttrs rest

mutual
/-- Model of the Python str(tag) serialisation of a node, used by the
Rojadirecta extractor, which runs its title regex over the serialised
markup of the event anchor. Text is rendered raw; entity escaping is
not modelled. -/
def render : Node → String
  | .text s => s
  | .elem t attrs cs =>
    "<" ++ t ++ renderAttrs attrs ++ ">" ++ renderL cs ++ "</" ++ t ++ ">"

/-- Serialisation of a list of sibling nodes. -/
def renderL : List Node → String
  | [] => ""
  | c :: cs => render c ++ renderL cs
end

/-- Character list of the serialised markup of a node. -/
def renderC (n : Node) : List Char := (render n).data

/-! Models of the two regular expressions of the program. -/

/-- Match of the DaddyLive time pattern, two digits, colon, two
digits, anchored at the start of the list: the matched text. -/
def matchHHMMAt (l : List Char) : Option String :=
  match l with
  | a :: b :: c :: d :: e :: _ =>
    if a.isDigit && b.isDigit && c = ':' && d.isDigit && e.isDigit then
      some ⟨[a, b, c, d, e]⟩
    else none
  | _ => none

/-- Model of re.search for the DaddyLive time pattern: text of the
leftmost match. -/
def timeSearch : List Char → Option String
  | [] => none
  | c :: rest =>
    match matchHHMMAt (c :: rest) with
    | some t => some t
    | none => timeSearch rest

/-- Opening literal of the Rojadirecta time-span pattern. -/
def spanOpenLit : String := "<span class=" ++ "\"t\"" ++ ">"

/-- Closing literal of the Rojadirecta time-span pattern. -/
def spanCloseLit : String := "</span>"

/-- Sentinel stored when the Rojadirecta extractor finds no time. -/
def sentinel : String := "No especificado"

/-- Placeholder markup the Rojadirecta extractor deletes from every
title. -/
def placeholderLit : String := "<a href=" ++ "\"#\"" ++ ">"

/-- Match of the time-span tail of the Rojadirecta pattern, anchored
at the start of the list: the opening literal, one or more digits, a
colon, one or more digits, the closing literal. Returns the captured
digits-colon-digits text (capture group two of the pattern). -/
def spanAt (l : List Char) : Option String :=
  if isPre spanOpenLit.data l then
    if ((l.drop spanOpenLit.data.length).takeWhile Char.isDigit).isEmpty then
      none
    else
      match (l.drop spanOpenLit.data.length).dropWhile Char.isDigit with
      | ':' :: r2 =>
        if (r2.takeWhile Char.isDigit).isEmpty then none
        else if isPre spanCloseLit.data (r2.dropWhile Char.isDigit) then
          some ⟨(l.drop spanOpenLit.data.length).takeWhile Char.isDigit ++
                ':' :: r2.takeWhile Char.isDigit⟩
        else none
      | _ => none
  else none

/-- Lazy extension of capture group one at a fixed start position: the
group grows one non-newline character at a time, and after each
character the engine tries the time-span tail. Returns the group and
the captured time. -/
def lazyFrom : List Char → Option (List Char × String)
  | [] => none
  | c :: rest =>
    if c = '\n' then none
    else
      match spanAt rest with
      | some t => some ([c], t)
      | none =>
        match lazyFrom rest with
        | some (g, t) => some (c :: g, t)
        | none => none

/-- Model of re.search for the Rojadirecta title-and-time pattern:
start positions are tried left to right, the first position admitting
a match wins, and at that position the lazy group is as short as
possible. Returns capture groups one and two. -/
def rojaSearch : List Char → Option (List Char × String)
  | [] => none
  | c :: rest =>
    match lazyFrom (c :: rest) with
    | some r => some r
    | none => rojaSearch rest

/-! The record shapes produced by the extractors. -/

/-- One viewing option of an event. The url is the href attribute
value: the Rojadirecta extractor always stores a string, the DaddyLive
extractor stores the Python None, modelled as none, when the anchor
has no href. -/
structure Channel where
  name : String
  url : Option String
deriving Repr, DecidableEq

/-- One extracted event. -/
structure Event where
  country_league : String
  title : String
  time : String
  channels : List Channel
deriving Repr, DecidableEq

/-! The Rojadirecta extractor (RojadirectaScraper.scrape). -/

/-- The node is an anchor element. -/
def anchorP : Node → Bool := tagP "a"

/-- First anchor among the strict descendants, as item.find with the
anchor tag. -/
def firstAnchor (n : Node) : Option Node := findFirst anchorP n

/-- The node is a span element carrying the class token t. -/
def spanTP (n : Node) : Bool := tagP "span" n && classTokP "t" n

/-- First time-marker span among the strict descendants. -/
def firstSpanT (n : Node) : Option Node := findFirst spanTP n

/-- First nested list among the strict descendants. -/
def firstUl (n : Node) : Option Node := findFirst (tagP "ul") n

/-- The node is a list item carrying the class token subitem1. -/
def subitemP (n : Node) : Bool := tagP "li" n && classTokP "subitem1" n

/-- Channel record read from one subitem list item: first anchor, its
text trimmed, its href with the empty string as default. Items with no
anchor yield nothing. -/
def rojaChannel (li : Node) : Option Channel :=
  (firstAnchor li).map
    (fun a => ⟨pyStripS (textOfS a), some ((getAttr a "href").getD "")⟩)

/-- Channels of one menu item: the subitem list items of its first
nested list, in document order. -/
def rojaChannels (item : Node) : List Channel :=
  match firstUl item with
  | none => []
  | some ul => (findAll subitemP ul).filterMap rojaChannel

/-- Grouping label of a menu item: the first whitespace-separated
token of its class attribute, the empty string when the attribute is
absent or holds no token. -/
def countryOf (item : Node) : String :=
  match getAttr item "class" with
  | none => ""
  | some v =>
    match tokensWs v.data with
    | [] => ""
    | t :: _ => t

/-- Time taken by the fallback path: the text of the first time-marker
span of the anchor, or the sentinel when there is none. -/
def fallbackTime (lnk : Node) : String :=
  match firstSpanT lnk with
  | some sp => textOfS sp
  | none => sentinel

/-- Event read from one menu item, none when the item has no anchor
and is skipped. Primary path: the title regex over the serialised
anchor markup; fallback path: the first time-marker span, or the
sentinel, with the time text deleted from the title. Both paths end by
deleting the placeholder anchor markup from the title. -/
def rojaItemEvent (item : Node) : Option Event :=
  match firstAnchor item with
  | none => none
  | some lnk =>
    match rojaSearch (renderC lnk) with
    | some (g1, t) =>
      some ⟨countryOf item, ⟨removeAll (pyStrip g1) placeholderLit.data⟩, t,
            rojaChannels item⟩
    | none =>
      some ⟨countryOf item,
            ⟨removeAll (pyStrip (removeAll (pyStrip (textOf lnk))
              (fallbackTime lnk).data)) placeholderLit.data⟩,
            fallbackTime lnk, rojaChannels item⟩

/-- The node is an unordered list carrying the class token menu. -/
def ulMenuP (n : Node) : Bool := tagP "ul" n && classTokP "menu" n

/-- Direct element children with the list-item tag. -/
def liChildren (n : Node) : List Node :=
  match n with
  | .elem _ _ cs => cs.filter (tagP "li")
  | .text _ => []

/-- Model of the CSS selection of direct list items of menu lists:
every menu list in the subtree contributes its direct list-item
children. -/
def menuLis (doc : Node) : List Node :=
  (findAllFrom ulMenuP doc).foldr (fun ul acc => liChildren ul ++ acc) []

/-- The full Rojadirecta extraction: nothing without a loaded
document, otherwise one event per menu item that has an anchor. -/
def rojaScrape (soup : Option Node) : List Event :=
  match soup with
  | none => []
  | some doc => (menuLis doc).filterMap rojaItemEvent

/-! The DaddyLive extractor (DaddyLiveScraper.scrape). -/

/-- Anchors of one emphasis block, in document order. -/
def anchorsOf (strong : Node) : List Node := findAll anchorP strong

/-- Channel record of one block anchor: raw text, href attribute or
the Python None when absent. -/
def daddyChannel (a : Node) : Channel := ⟨textOfS a, getAttr a "href"⟩

/-- Model of str.index wrapped total: position of the first
occurrence, zero as an arbitrary default at the never-reached missing
case. The Except variant below models the raising behaviour. -/
def pyIndexD (needle hay : List Char) : Nat := (pyFind needle hay).getD 0

/-- Title of a DaddyLive block: the slice of the block text from just
after the first occurrence of the matched time to one character
before the first occurrence of the first link text, or to the end
when the block has no link, then stripped. -/
def daddyTitle (texto : List Char) (hora : String) (canales : List String) :
    String :=
  ⟨pyStrip (pySlice texto
    ((pyIndexD hora.data texto + hora.data.length : Nat) : Int)
    (match canales with
     | [] => (texto.length : Int)
     | c0 :: _ => (pyIndexD c0.data texto : Int) - 1))⟩

/-- Independent per-block extraction: none when the block text has no
time token, otherwise the event of this block with exactly its own
links as channels. -/
def daddyBlockEvent (strong : Node) : Option Event :=
  let texto := textOf strong
  match timeSearch texto with
  | none => none
  | some hora =>
    let links := anchorsOf strong
    some ⟨"", daddyTitle texto hora (links.map textOfS), hora,
          links.map daddyChannel⟩

/-- The block loop exactly as written in the source: a channel
accumulator lives outside the loop, links of a matching block are
appended to it, the emitted event stores the accumulator, and the
accumulator is rebound to the empty list after each emission. -/
def daddyLoop : List Node → List Channel → List Event
  | [], _ => []
  | s :: rest, acc =>
    let texto := textOf s
    match timeSearch texto with
    | none => daddyLoop rest acc
    | some hora =>
      let links := anchorsOf s
      let acc2 := acc ++ links.map daddyChannel
      ⟨"", daddyTitle texto hora (links.map textOfS), hora, acc2⟩ ::
        daddyLoop rest []

/-- The full DaddyLive extraction: nothing without a loaded document,
otherwise the block loop over every strong element, with an initially
empty accumulator. -/
def daddyScrape (soup : Option Node) : List Event :=
  match soup with
  | none => []
  | some doc => daddyLoop (findAll (tagP "strong") doc) []

/-- Per-block extraction with the two Python str.index calls modelled
as raising: an error value is the ValueError the call would raise.
The no-raise theorem below shows the error branches are unreachable. -/
def daddyBlockEventExc (strong : Node) : Except String (Option Event) :=
  let texto := textOf strong
  match timeSearch texto with
  | none => .ok none
  | some hora =>
    let links := anchorsOf strong
    let canales := links.map textOfS
    match pyFind hora.data texto with
    | none => .error "substring not found"
    | some idx =>
      let inicio : Int := (idx : Nat) + hora.data.length
      match canales with
      | [] =>
        .ok (some ⟨"", ⟨pyStrip (pySlice texto inicio (texto.length : Int))⟩,
                   hora, links.map daddyChannel⟩)
      | c0 :: _ =>
        match pyFind c0.data texto with
        | none => .error "substring not found"
        | some i0 =>
          .ok (some ⟨"", ⟨pyStrip (pySlice texto inicio ((i0 : Int) - 1))⟩,
                     hora, links.map daddyChannel⟩)

/-! Model of urlparse as used by the program: the netloc of a URL, and
the hostname for comparison with the specification wording. -/

/-- Characters allowed in a URL scheme after the leading letter. -/
def isSchemeChar (c : Char) : Bool :=
  c.isAlphanum || c = '+' || c = '-' || c = '.'

/-- Strip a leading scheme and colon when present, as urlparse does:
the part before the first colon must be nonempty, start with a letter
and consist of scheme characters. -/
def afterScheme (l : List Char) : List Char :=
  match l.findIdx? (fun c => c = ':') with
  | none => l
  | some i =>
    if 0 < i
        && (match l.head? with | some c => c.isAlpha | none => false)
        && (l.take i).all isSchemeChar then
      l.drop (i + 1)
    else l

/-- Model of urlparse(url).netloc: after the scheme, when the rest
starts with two slashes, the run up to the first slash, question mark
or hash; otherwise empty. -/
def netlocOf (url : String) : String :=
  match afterScheme url.data with
  | '/' :: '/' :: rest =>
    ⟨rest.takeWhile (fun c => !(c = '/' || c = '?' || c = '#'))⟩
  | _ => ""

/-- Model of urlparse(url).hostname: the netloc after the last at
sign, up to the first colon, lowercased. Bracketed IPv6 hosts are not
modelled. -/
def hostnameOf (url : String) : String :=
  let nl := (netlocOf url).data
  let afterAt := ((nl.reverse.takeWhile (fun c => c ≠ '@')).reverse)
  ⟨(afterAt.takeWhile (fun c => c ≠ ':')).map Char.toLower⟩

/-! The scraper registry and manager (ScraperManager). -/

/-- The two registered extractor classes of the program. -/
inductive ScraperKind where
  | roja : ScraperKind
  | daddy : ScraperKind
deriving Repr, DecidableEq

/-- Run the extractor of a class on a loaded document. -/
def runScraper : ScraperKind → Option Node → List Event
  | .roja, s => rojaScrape s
  | .daddy, s => daddyScrape s

/-- Model of Python dict assignment on an insertion-ordered
association list: an existing key keeps its position and gets the new
value, a new key is appended. -/
def dictInsert {β : Type} : List (String × β) → String → β →
    List (String × β)
  | [], k, v => [(k, v)]
  | e :: t, k, v => if e.1 = k then (k, v) :: t else e :: dictInsert t k v

/-- Model of Python dict lookup. -/
def dictGet? {β : Type} (m : List (String × β)) (k : String) : Option β :=
  (m.find? (fun e => e.1 = k)).map (·.2)

/-- Model of Python dict.update: insert every entry of the second
dict, in its order. -/
def dictUpdate {β : Type} (m upd : List (String × β)) : List (String × β) :=
  upd.foldl (fun acc e => dictInsert acc e.1 e.2) m

/-- Model of register_scraper: dict assignment on the pattern map. -/
def registerScraper {α : Type} : List (String × α) → String → α →
    List (String × α)
  | [], pat, cls => [(pat, cls)]
  | e :: t, pat, cls =>
    if e.1 = pat then (pat, cls) :: t else e :: registerScraper t pat cls

/-- Registry built from a sequence of register calls, in order. -/
def buildRegistry {α : Type} (calls : List (String × α)) :
    List (String × α) :=
  calls.foldl (fun m c => registerScraper m c.1 c.2) []

/-- Model of get_scraper_for_url: the first map entry, in map order,
whose pattern is a substring of the netloc of the URL. -/
def getScraperForUrl {α : Type} (m : List (String × α)) (url : String) :
    Option α :=
  (m.find? (fun e => containsSubS e.1 (netlocOf url))).map (·.2)

/-- State of a ScraperManager: the pattern map and the results map. -/
structure Manager where
  scraperMap : List (String × ScraperKind)
  results : List (String × List Event)
deriving Repr, DecidableEq

/-- A world maps a URL to the document its page parses to, none when
loading fails for any reason. -/
def World : Type := String → Option Node

/-- Model of scrape_url: resolve the class, load, extract, store under
the URL on success; return the empty list and leave the results map
untouched on any failure. -/
def scrapeUrl (w : World) (mgr : Manager) (url : String) :
    Manager × List Event :=
  match getScraperForUrl mgr.scraperMap url with
  | none => (mgr, [])
  | some k =>
    match w url with
    | none => (mgr, [])
    | some doc =>
      let r := runScraper k (some doc)
      ({ mgr with results := dictInsert mgr.results url r }, r)

/-- The for loop of scrape_multiple_urls: one scrape_url call per URL
in submission order, each return value assigned into the local results
dict. -/
def smLoop (w : World) : Manager → List (String × List Event) →
    List String → Manager × List (String × List Event)
  | mgr, acc, [] => (mgr, acc)
  | mgr, acc, url :: rest =>
    let r := scrapeUrl w mgr url
    smLoop w r.1 (dictInsert acc url r.2) rest

/-- Model of scrape_multiple_urls: the loop fills a local results
dict, which is then merged into the manager results by dict.update and
returned. -/
def scrapeMultipleUrls (w : World) (mgr : Manager) (urls : List String) :
    Manager × List (String × List Event) :=
  let st := smLoop w mgr [] urls
  ({ st.1 with results := dictUpdate st.1.results st.2 }, st.2)

/-! The playlist exporter (export_to_m3u). -/

/-- One playlist row. The channel url field carries the stored Python
value, which the DaddyLive extractor can leave as None. -/
structure M3uRow where
  source : String
  url : String
  country_league : String
  title : String
  time : String
  channel_name : String
  channel_url : Option String
deriving Repr, DecidableEq

/-- Rows of one event: one row per channel. Events always carry their
channels key, so the branch of the source for records without one is
unreachable on extractor output and contributes no row here. -/
def eventRows (url : String) (ev : Event) : List M3uRow :=
  ev.channels.map
    (fun ch => ⟨netlocOf url, url, ev.country_league, ev.title, ev.time,
                ch.name, ch.url⟩)

/-- All rows of a results map, in map and extraction order. -/
def m3uRows (results : List (String × List Event)) : List M3uRow :=
  (results.map (fun kv => (kv.2.map (eventRows kv.1)).flatten)).flatten

/-- Row count the claim text asserts: one row per channel and one row
for a channel-less event. This definition follows the words of the
claim, for comparison with the exporter model. -/
def claimRowCount (results : List (String × List Event)) : Nat :=
  (results.map (fun kv => (kv.2.map (fun ev => max 1 ev.channels.length)).sum)).sum

/-! The JSON exporter (export_to_json). The json.dump call serialises
the results map; its value shapes are modelled by a JSON syntax tree.
The data model of the program produces only null, strings, arrays and
objects. -/

inductive Json where
  | null : Json
  | str : String → Json
  | arr : List Json → Json
  | obj : List (String × Json) → Json
deriving Repr

/-- JSON shape of a channel record. -/
def channelToJson (c : Channel) : Json :=
  .obj [("name", .str c.name),
        ("url", match c.url with | some u => .str u | none => .null)]

/-- JSON shape of an event record. -/
def eventToJson (e : Event) : Json :=
  .obj [("country_league", .str e.country_league),
        ("title", .str e.title),
        ("time", .str e.time),
        ("channels", .arr (e.channels.map channelToJson))]

/-- JSON shape of the whole results map, keys in insertion order. -/
def resultsToJson (rs : List (String × List Event)) : Json :=
  .obj (rs.map (fun kv => (kv.1, .arr (kv.2.map eventToJson))))

/-- Strict decoder of a channel object. -/
def jsonToChannel : Json → Option Channel
  | .obj [("name", .str n), ("url", .str u)] => some ⟨n, some u⟩
  | .obj [("name", .str n), ("url", .null)] => some ⟨n, none⟩
  | _ => none

/-- Strict decoder of an event object. -/
def jsonToEvent : Json → Option Event
  | .obj [("country_league", .str cl), ("title", .str ti), ("time", .str tm),
          ("channels", .arr cs)] =>
    (cs.mapM jsonToChannel).map (fun l => ⟨cl, ti, tm, l⟩)
  | _ => none

/-- Strict decoder of the whole results map. -/
def jsonToResults : Json → Option (List (String × List Event))
  | .obj kvs =>
    kvs.mapM (fun kv =>
      match kv.2 with
      | .arr evs => (evs.mapM jsonToEvent).map (fun l => (kv.1, l))
      | _ => none)
  | _ => none

/-! Text layer of the JSON exporter: a model of the json.dump output
text with ensure_ascii set to false and indent four, and a model of
json.loads restricted to the grammar the exporter emits (null,
strings, arrays, objects; the data model has no numbers or booleans).
The round-trip theorem shows parsing the printed text returns the
exact syntax tree. -/

/-- Lowercase hexadecimal digit of a value below sixteen. -/
def hexDigit (n : Nat) : Char :=
  if n < 10 then Char.ofNat (48 + n) else Char.ofNat (87 + n)

/-- Value of a hexadecimal digit. -/
def hexVal (c : Char) : Option Nat :=
  if '0' ≤ c ∧ c ≤ '9' then some (c.toNat - 48)
  else if 'a' ≤ c ∧ c ≤ 'f' then some (c.toNat - 87)
  else if 'A' ≤ c ∧ c ≤ 'F' then some (c.toNat - 55)
  else none

/-- Escaping of one character as json.dump performs it with
ensure_ascii false: quote, backslash and the five short control
escapes by a two-character escape, any other character below thirty
two by a hexadecimal escape, everything else verbatim. -/
def escapeChar (c : Char) : List Char :=
  if c = '"' then ['\\', '"']
  else if c = '\\' then ['\\', '\\']
  else if c = '\x08' then ['\\', 'b']
  else if c = '\x09' then ['\\', 't']
  else if c = '\x0a' then ['\\', 'n']
  else if c = '\x0c' then ['\\', 'f']
  else if c = '\x0d' then ['\\', 'r']
  else if c.toNat < 32 then
    ['\\', 'u', '0', '0', hexDigit (c.toNat / 16), hexDigit (c.toNat % 16)]
  else [c]

/-- Escaping of a whole string body. -/
def escapeStr : List Char → List Char
  | [] => []
  | c :: t => escapeChar c ++ escapeStr t

/-- Indentation of a nesting level: four spaces per level. -/
def indentSp (lvl : Nat) : List Char := List.replicate (4 * lvl) ' '

mutual
/-- Text of a JSON value at a nesting level, as json.dump renders it
with indent four: objects and arrays with one entry per line,
separators comma and colon-space. -/
def printJson : Json → Nat → List Char
  | .null, _ => ['n', 'u', 'l', 'l']
  | .str s, _ => '"' :: (escapeStr s.data ++ ['"'])
  | .arr [], _ => ['[', ']']
  | .arr (x :: xs), lvl =>
    '[' :: '\n' :: (printArr (x :: xs) (lvl + 1) ++
      '\n' :: (indentSp lvl ++ [']']))
  | .obj [], _ => ['\x7b', '\x7d']
  | .obj (kv :: kvs), lvl =>
    '\x7b' :: '\n' :: (printObj (kv :: kvs) (lvl + 1) ++
      '\n' :: (indentSp lvl ++ ['\x7d']))

/-- Lines of a nonempty array: indentation, the item, and a comma and
line break before each further item. -/
def printArr : List Json → Nat → List Char
  | [], _ => []
  | [x], lvl => indentSp lvl ++ printJson x lvl
  | x :: y :: xs, lvl =>
    indentSp lvl ++ (printJson x lvl ++
      ',' :: '\n' :: printArr (y :: xs) lvl)

/-- Lines of a nonempty object: indentation, the quoted key, colon and
space, the value, and a comma and line break before each further
entry. -/
def printObj : List (String × Json) → Nat → List Char
  | [], _ => []
  | [(k, v)], lvl =>
    indentSp lvl ++ ('"' :: (escapeStr k.data ++
      '"' :: ':' :: ' ' :: printJson v lvl))
  | (k, v) :: kv2 :: kvs, lvl =>
    indentSp lvl ++ ('"' :: (escapeStr k.data ++
      '"' :: ':' :: ' ' :: (printJson v lvl ++
        ',' :: '\n' :: printObj (kv2 :: kvs) lvl)))
end

/-- The whitespace characters json.loads skips between tokens. -/
def isJsonWs (c : Char) : Bool :=
  c = ' ' || c = '\t' || c = '\n' || c = '\r'

/-- Skip token-separating whitespace. -/
def skipWs (l : List Char) : List Char := l.dropWhile isJsonWs

/-- The list starts with the given character. -/
def headIs (c : Char) : List Char → Bool
  | x :: _ => x = c
  | [] => false

/-- Decoding of one escape sequence after a backslash: the decoded
character and the rest of the input. -/
def parseEscape : List Char → Option (Char × List Char)
  | '"' :: r => some ('"', r)
  | '\\' :: r => some ('\\', r)
  | '/' :: r => some ('/', r)
  | 'b' :: r => some ('\x08', r)
  | 'f' :: r => some ('\x0c', r)
  | 'n' :: r => some ('\x0a', r)
  | 'r' :: r => some ('\x0d', r)
  | 't' :: r => some ('\x09', r)
  | 'u' :: h1 :: h2 :: h3 :: h4 :: r =>
    match hexVal h1, hexVal h2, hexVal h3, hexVal h4 with
    | some v1, some v2, some v3, some v4 =>
      some (Char.ofNat (4096 * v1 + 256 * v2 + 16 * v3 + v4), r)
    | _, _, _, _ => none
  | _ => none

/-- Parse the body of a string literal after its opening quote, up to
and including the closing quote: the decoded content and the rest of
the input. The fuel bounds the content length. -/
def parseStrBodyF : Nat → List Char → Option (List Char × List Char)
  | 0, _ => none
  | fuel + 1, l =>
    match l with
    | [] => none
    | c :: rest =>
      if c = '"' then some ([], rest)
      else if c = '\\' then
        (parseEscape rest).bind (fun er =>
          (parseStrBodyF fuel er.2).map (fun p => (er.1 :: p.1, p.2)))
      else (parseStrBodyF fuel rest).map (fun p => (c :: p.1, p.2))

/-- String-literal body parse with enough fuel for its own input. -/
def parseStrBody (l : List Char) : Option (List Char × List Char) :=
  parseStrBodyF (l.length + 1) l

mutual
/-- Parse one JSON value of the exporter grammar. The fuel argument
bounds the recursion depth; the round-trip theorem discharges it. -/
def parseVal : Nat → List Char → Option (Json × List Char)
  | 0, _ => none
  | fuel + 1, l =>
    match skipWs l with
    | [] => none
    | c :: rest =>
      if c = 'n' then
        match rest with
        | 'u' :: 'l' :: 'l' :: r => some (.null, r)
        | _ => none
      else if c = '"' then
        (parseStrBody rest).map (fun p => (.str ⟨p.1⟩, p.2))
      else if c = '[' then
        if headIs ']' (skipWs rest) then some (.arr [], (skipWs rest).tail)
        else (parseArrItems fuel rest).map (fun p => (.arr p.1, p.2))
      else if c = '\x7b' then
        if headIs '\x7d' (skipWs rest) then some (.obj [], (skipWs rest).tail)
        else (parseObjItems fuel rest).map (fun p => (.obj p.1, p.2))
      else none

/-- Parse the items of a nonempty array up to and including the
closing bracket. -/
def parseArrItems : Nat → List Char → Option (List Json × List Char)
  | 0, _ => none
  | fuel + 1, l =>
    match parseVal fuel l with
    | none => none
    | some (x, r) =>
      match skipWs r with
      | ',' :: r2 => (parseArrItems fuel r2).map (fun p => (x :: p.1, p.2))
      | ']' :: r2 => some ([x], r2)
      | _ => none

/-- Parse the entries of a nonempty object up to and including the
closing brace. -/
def parseObjItems : Nat → List Char → Option (List (String × Json) × List Char)
  | 0, _ => none
  | fuel + 1, l =>
    match skipWs l with
    | '"' :: rest =>
      match parseStrBody rest with
      | none => none
      | some (k, r) =>
        match skipWs r with
        | ':' :: r2 =>
          match parseVal fuel r2 with
          | none => none
          | some (v, r3) =>
            match skipWs r3 with
            | ',' :: r4 =>
              (parseObjItems fuel r4).map (fun p => ((⟨k⟩, v) :: p.1, p.2))
            | '\x7d' :: r4 => some ([(⟨k⟩, v)], r4)
            | _ => none
        | _ => none
    | _ => none
end

mutual
/-- Fuel sufficient to parse a value: one unit per parser call. -/
def fuelJ : Json → Nat
  | .null => 1
  | .str _ => 1
  | .arr xs => 1 + fuelL xs
  | .obj kvs => 1 + fuelO kvs

/-- Fuel for array items. -/
def fuelL : List Json → Nat
  | [] => 0
  | x :: t => 1 + fuelJ x + fuelL t

/-- Fuel for object entries. -/
def fuelO : List (String × Json) → Nat
  | [] => 0
  | kv :: t => 1 + fuelJ kv.2 + fuelO t
end

/-- Model of the json.dump call of export_to_json: the results map
rendered as UTF-8 text with indent four and non-ASCII characters kept
verbatim. -/
def jsonDumps (rs : List (String × List Event)) : String :=
  ⟨printJson (resultsToJson rs) 0⟩

/-- Model of json.loads on a whole document: one value, then nothing
but whitespace. -/
def parseJsonText (s : String) : Option Json :=
  match parseVal (s.data.length + 1) s.data with
  | some (v, rest) => if skipWs rest = [] then some v else none
  | none => none

/-! Predicates used to state the claims about the time field. -/

/-- The string has the exact shape two digits, colon, two digits, the
form the claims call HH colon MM. -/
def isHHMM (s : String) : Bool :=
  match s.data with
  | [a, b, c, d, e] =>
    a.isDigit && b.isDigit && c = ':' && d.isDigit && e.isDigit
  | _ => false

/-- The list has the shape one or more digits, colon, one or more
digits, the shape captured by the Rojadirecta time pattern. -/
def digitsColonDigits (l : List Char) : Bool :=
  let d1 := l.takeWhile Char.isDigit
  match l.dropWhile Char.isDigit with
  | ':' :: r2 => d1 ≠ [] && r2 ≠ [] && r2.all Char.isDigit
  | _ => false

/-! Concrete documents used by counterexamples and witnesses. -/

/-- Menu item whose anchor has a time-marker span with non-time text;
the primary pattern fails and the fallback copies the span text into
the time field. -/
def docSpanText : Node :=
  .elem "html" []
    [.elem "ul" [("class", "menu")]
      [.elem "li" []
        [.elem "a" []
          [.text "Partido ", .elem "span" [("class", "t")] [.text "pronto"]]]]]

/-- Well-formed menu item: anchor with a title, a time span and two
subitem channels, the second without an href. -/
def liMenu : Node :=
  .elem "li" [("class", "futbol liga")]
    [.elem "a" [("href", "#")]
      [.text "Real Madrid vs Barcelona ",
       .elem "span" [("class", "t")] [.text "20:00"]],
     .elem "ul" []
      [.elem "li" [("class", "subitem1")]
        [.elem "a" [("href", "http://c1")] [.text " Canal1 "]],
       .elem "li" [("class", "subitem1")]
        [.elem "a" [] [.text "Canal2"]]]]

/-- Document holding that menu item. -/
def docMenu : Node :=
  .elem "html" [] [.elem "ul" [("class", "menu")] [liMenu]]

/-- Emphasis block whose text repeats the time after the title. -/
def strongTimeInTitle : Node :=
  .elem "strong" [] [.text "20:00 Foo 20:00 Bar"]

/-- Document holding that block. -/
def docTimeInTitle : Node := .elem "div" [] [strongTimeInTitle]

/-- Emphasis block whose title region repeats the text of the second
link, so the emitted title contains a channel name. -/
def strongTwoLinks : Node :=
  .elem "strong" []
    [.text "20:00 Match Canal2 special ",
     .elem "a" [("href", "h1")] [.text "Canal1"],
     .text " ",
     .elem "a" [("href", "h2")] [.text "Canal2"]]

/-- Document holding that block. -/
def docChanInTitle : Node := .elem "div" [] [strongTwoLinks]

/-- The events the two blocks above extract to. -/
def evTimeInTitle : Event := ⟨"", "Foo 20:00 Bar", "20:00", []⟩

/-- Event of the two-link block. -/
def evTwoLinks : Event :=
  ⟨"", "Match Canal2 special", "20:00",
   [⟨"Canal1", some "h1"⟩, ⟨"Canal2", some "h2"⟩]⟩

/-- Menu item engineered so that deleting the span text from the
anchor text glues the surrounding characters into a fresh occurrence
of the time string: the span carries a second class token, so the
serialised markup defeats the primary pattern. -/
def docMergeTime : Node :=
  .elem "html" []
    [.elem "ul" [("class", "menu")]
      [.elem "li" []
        [.elem "a" []
          [.text "2", .elem "span" [("class", "t x")] [.text "20:00"],
           .text "0:00"]]]]

/-- Emphasis block with an untrimmed link text and no href. -/
def docRawChannel : Node :=
  .elem "div" []
    [.elem "strong" [] [.text "21:30 Game ", .elem "a" [] [.text " Canal "]]]

/-- Menu item with no direct anchor: the first anchor found is the
channel anchor itself, so the emitted title equals a channel name. -/
def docChannelAsTitle : Node :=
  .elem "html" []
    [.elem "ul" [("class", "menu")]
      [.elem "li" []
        [.elem "ul" []
          [.elem "li" [("class", "subitem1")]
            [.elem "a" [("href", "u")] [.text "CanalX"]]]]]]

/-- Minimal document with no menu items and no emphasis blocks. -/
def docEmpty : Node := .elem "html" [] []

/-- World used by concrete manager examples: one loadable DaddyLive
page, every other URL fails to load. -/
def wExample : World :=
  fun u => if u = "http://daddy.example/" then some docTimeInTitle else none

/-- Manager with one registered pattern and empty results. -/
def mgrExample : Manager := ⟨[("daddy", .daddy)], []⟩

/-! Helper lemmas about the string-primitive models. -/

theorem isPre_ex : ∀ {a b : List Char}, isPre a b = true →
    ∃ t, b = a ++ t := by
  intro a
  induction a with
  | nil => intro b _; exact ⟨b, rfl⟩
  | cons c cs ih =>
    intro b h
    cases b with
    | nil => simp [isPre] at h
    | cons d ds =>
      simp only [isPre, Bool.and_eq_true, beq_iff_eq] at h
      obtain ⟨t, ht⟩ := ih h.2
      exact ⟨t, by simp [h.1, ht]⟩

theorem ex_isPre : ∀ (a t : List Char), isPre a (a ++ t) = true := by
  intro a
  induction a with
  | nil => intro t; rfl
  | cons c cs ih =>
    intro t
    simp only [List.cons_append, isPre, Bool.and_eq_true, beq_iff_eq]
    exact ⟨trivial, ih t⟩

theorem pyFind_nil_needle : ∀ (l : List Char), pyFind [] l = some 0 := by
  intro l
  cases l <;> rfl

theorem pyFind_cons (n : List Char) (c : Char) (t : List Char) :
    pyFind n (c :: t) =
      if isPre n (c :: t) then some 0 else (pyFind n t).map (· + 1) := rfl

theorem pyFind_some : ∀ {h : List Char} {n : List Char} {k : Nat},
    pyFind n h = some k →
    ∃ pre post, h = pre ++ n ++ post ∧ pre.length = k := by
  intro h
  induction h with
  | nil =>
    intro n k hf
    cases n with
    | nil =>
      have h0 : pyFind ([] : List Char) [] = some 0 := rfl
      rw [h0] at hf
      exact ⟨[], [], rfl, by simp [(Option.some_inj.mp hf)]⟩
    | cons c cs =>
      have h0 : pyFind (c :: cs) [] = none := rfl
      rw [h0] at hf
      exact absurd hf (by simp)
  | cons c t ih =>
    intro n k hf
    rw [pyFind_cons] at hf
    by_cases hp : isPre n (c :: t) = true
    · obtain ⟨q, hq⟩ := isPre_ex hp
      rw [if_pos hp] at hf
      exact ⟨[], q, by simpa using hq,
             by simp [(Option.some_inj.mp hf).symm]⟩
    · rw [if_neg hp] at hf
      cases hpf : pyFind n t with
      | none => rw [hpf] at hf; simp at hf
      | some k0 =>
        rw [hpf] at hf
        have hk : k0 + 1 = k := Option.some_inj.mp hf
        obtain ⟨pre, post, hdec, hlen⟩ := ih hpf
        exact ⟨c :: pre, post, by simp [hdec], by simp [hlen, hk]⟩

theorem pyFind_of_ex : ∀ (pre : List Char) (n post : List Char),
    (pyFind n (pre ++ n ++ post)).isSome = true := by
  intro pre
  induction pre with
  | nil =>
    intro n post
    cases n with
    | nil => simp [pyFind_nil_needle]
    | cons c cs =>
      have hp : isPre (c :: cs) ((c :: cs) ++ post) = true :=
        ex_isPre (c :: cs) post
      simp only [List.nil_append, List.cons_append] at hp ⊢
      rw [pyFind_cons, if_pos hp]
      rfl
  | cons c pre ih =>
    intro n post
    have step : pyFind n ((c :: pre) ++ n ++ post) =
        if isPre n (c :: (pre ++ n ++ post)) then some 0
        else (pyFind n (pre ++ n ++ post)).map (· + 1) := by
      simp only [List.cons_append, List.append_assoc] at *
      exact pyFind_cons n c (pre ++ (n ++ post))
    rw [step]
    by_cases hp : isPre n (c :: (pre ++ n ++ post)) = true
    · rw [if_pos hp]; rfl
    · rw [if_neg hp]
      have := ih n post
      cases hpf : pyFind n (pre ++ n ++ post) with
      | none => rw [hpf] at this; simp at this
      | some k0 => simp [hpf]

theorem pyFind_isSome_of_infixOf {n h : List Char} (hi : InfixOf n h) :
    (pyFind n h).isSome = true := by
  obtain ⟨p, q, hq⟩ := hi
  rw [hq]
  exact pyFind_of_ex p n q

theorem infixOf_trans {a b c : List Char} (h1 : InfixOf a b)
    (h2 : InfixOf b c) : InfixOf a c := by
  obtain ⟨p1, q1, rfl⟩ := h1
  obtain ⟨p2, q2, rfl⟩ := h2
  exact ⟨p2 ++ p1, q1 ++ q2, by simp⟩

theorem infixOf_refl (a : List Char) : InfixOf a a := ⟨[], [], by simp⟩

theorem sublist_of_infixOf {a b : List Char} (h : InfixOf a b) :
    a.Sublist b := by
  obtain ⟨p, q, rfl⟩ := h
  have h2 : (a ++ q).Sublist (p ++ a ++ q) := by
    rw [List.append_assoc]
    exact List.sublist_append_right p (a ++ q)
  exact (List.sublist_append_left a q).trans h2

theorem removeAllGo_sublist (old : List Char) :
    ∀ (l : List Char) (skip : Nat), (removeAllGo old skip l).Sublist l := by
  intro l
  induction l with
  | nil => intro skip; cases skip <;> simp [removeAllGo]
  | cons c t ih =>
    intro skip
    cases skip with
    | succ s =>
      have h0 : removeAllGo old (s + 1) (c :: t) = removeAllGo old s t := rfl
      rw [h0]
      exact (ih s).cons c
    | zero =>
      have h0 : removeAllGo old 0 (c :: t) =
          if !old.isEmpty && isPre old (c :: t) then
            removeAllGo old (old.length - 1) t
          else c :: removeAllGo old 0 t := rfl
      rw [h0]
      by_cases hb : (!old.isEmpty && isPre old (c :: t)) = true
      · rw [if_pos hb]
        exact (ih (old.length - 1)).cons c
      · rw [if_neg hb]
        exact (ih 0).cons₂ c

theorem removeAll_sublist (s old : List Char) : (removeAll s old).Sublist s :=
  removeAllGo_sublist old s 0

theorem dropWhile_ex (p : Char → Bool) (l : List Char) :
    ∃ q, l = q ++ l.dropWhile p :=
  ⟨l.takeWhile p, (List.takeWhile_append_dropWhile p l).symm⟩

theorem stripEnd_ex (l : List Char) : ∃ q, l = stripEnd l ++ q := by
  obtain ⟨q, hq⟩ := dropWhile_ex Char.isWhitespace l.reverse
  refine ⟨q.reverse, ?_⟩
  have h2 : l.reverse.reverse =
      (q ++ l.reverse.dropWhile Char.isWhitespace).reverse := by rw [← hq]
  simpa [stripEnd, List.reverse_append] using h2

theorem pyStrip_infixOf (l : List Char) : InfixOf (pyStrip l) l := by
  obtain ⟨p, hp⟩ := dropWhile_ex Char.isWhitespace l
  obtain ⟨q, hq⟩ := stripEnd_ex (l.dropWhile Char.isWhitespace)
  refine ⟨p, q, ?_⟩
  conv_lhs => rw [hp, hq]
  simp [pyStrip, List.append_assoc]

theorem pyStrip_sublist (l : List Char) : (pyStrip l).Sublist l :=
  sublist_of_infixOf (pyStrip_infixOf l)

theorem pySlice_infixOf_drop (l : List Char) (k : Nat) (j : Int)
    (hk : k ≤ l.length) : InfixOf (pySlice l (k : Int) j) (l.drop k) := by
  have hi0 : (if (k : Int) < 0 then max ((l.length : Int) + k) 0
      else min (k : Int) (l.length : Int)) = (k : Int) := by
    rw [if_neg (by omega)]
    omega
  simp only [pySlice, hi0, Int.toNat_ofNat]
  rw [List.drop_take]
  exact ⟨[], (l.drop k).drop ((if j < 0 then max ((l.length : Int) + j) 0
      else min j (l.length : Int)).toNat - k),
    by simp [List.take_append_drop]⟩

theorem infixOf_append_right {a b : List Char} (r : List Char)
    (h : InfixOf a b) : InfixOf a (b ++ r) := by
  obtain ⟨p, q, rfl⟩ := h
  exact ⟨p, q ++ r, by simp⟩

theorem infixOf_append_left {a b : List Char} (lft : List Char)
    (h : InfixOf a b) : InfixOf a (lft ++ b) := by
  obtain ⟨p, q, rfl⟩ := h
  exact ⟨lft ++ p, q, by simp⟩

theorem infixOf_cons {a b : List Char} (c : Char) (h : InfixOf a b) :
    InfixOf a (c :: b) := by
  have h2 := infixOf_append_left [c] h
  simpa using h2

theorem mem_of_headQ {α : Type} : ∀ {l : List α} {x : α},
    l.head? = some x → x ∈ l := by
  intro l x h
  cases l with
  | nil => simp at h
  | cons c t =>
    simp only [List.head?_cons, Option.some_inj] at h
    simp [h]

/-! Lemmas locating the text of found descendants inside the text of
the node they were found under. -/

mutual
theorem textOf_infixOf_from (p : Node → Bool) :
    ∀ (n d : Node), d ∈ findAllFrom p n → InfixOf (textOf d) (textOf n)
  | .text s, d, hd => by
    have h0 : findAllFrom p (.text s) =
        if p (.text s) then [.text s] else [] := rfl
    rw [h0] at hd
    by_cases hp : p (.text s) = true
    · rw [if_pos hp] at hd
      simp only [List.mem_singleton] at hd
      rw [hd]
      exact infixOf_refl _
    · rw [if_neg hp] at hd
      simp at hd
  | .elem t a cs, d, hd => by
    have h0 : findAllFrom p (.elem t a cs) =
        (if p (.elem t a cs) then [Node.elem t a cs] else []) ++
          findAllFromL p cs := rfl
    rw [h0] at hd
    rcases List.mem_append.mp hd with h1 | h2
    · by_cases hp : p (.elem t a cs) = true
      · rw [if_pos hp] at h1
        simp only [List.mem_singleton] at h1
        rw [h1]
        exact infixOf_refl _
      · rw [if_neg hp] at h1
        simp at h1
    · have hrec := textOfL_infixOf_fromL p cs d h2
      have h3 : textOf (.elem t a cs) = textOfL cs := rfl
      rw [h3]
      exact hrec

theorem textOfL_infixOf_fromL (p : Node → Bool) :
    ∀ (cs : List Node) (d : Node), d ∈ findAllFromL p cs →
      InfixOf (textOf d) (textOfL cs)
  | [], d, hd => by simp [findAllFromL] at hd
  | c :: cs, d, hd => by
    have h0 : findAllFromL p (c :: cs) =
        findAllFrom p c ++ findAllFromL p cs := rfl
    rw [h0] at hd
    have h1 : textOfL (c :: cs) = textOf c ++ textOfL cs := rfl
    rw [h1]
    rcases List.mem_append.mp hd with h2 | h3
    · exact infixOf_append_right _ (textOf_infixOf_from p c d h2)
    · exact infixOf_append_left _ (textOfL_infixOf_fromL p cs d h3)
end

theorem textOf_infixOf_findAll {p : Node → Bool} {n d : Node}
    (hd : d ∈ findAll p n) : InfixOf (textOf d) (textOf n) := by
  cases n with
  | text s => simp [findAll] at hd
  | elem t a cs =>
    have h0 : findAll p (.elem t a cs) = findAllFromL p cs := rfl
    rw [h0] at hd
    exact textOfL_infixOf_fromL p cs d hd

/-! Lemmas about the time-pattern models. -/

theorem matchHHMMAt_some : ∀ {l : List Char} {t : String},
    matchHHMMAt l = some t →
    isHHMM t = true ∧ ∃ rest, l = t.data ++ rest := by
  intro l t hm
  rcases l with _ | ⟨a, l1⟩
  · simp [matchHHMMAt] at hm
  rcases l1 with _ | ⟨b, l2⟩
  · simp [matchHHMMAt] at hm
  rcases l2 with _ | ⟨c, l3⟩
  · simp [matchHHMMAt] at hm
  rcases l3 with _ | ⟨d, l4⟩
  · simp [matchHHMMAt] at hm
  rcases l4 with _ | ⟨e, r⟩
  · simp [matchHHMMAt] at hm
  simp only [matchHHMMAt] at hm
  split at hm
  · rename_i hcond
    have ht : t = ⟨[a, b, c, d, e]⟩ := (Option.some_inj.mp hm).symm
    subst ht
    refine ⟨?_, r, rfl⟩
    simpa [isHHMM] using hcond
  · simp at hm

theorem timeSearch_some : ∀ {l : List Char} {t : String},
    timeSearch l = some t →
    isHHMM t = true ∧ InfixOf t.data l := by
  intro l
  induction l with
  | nil => intro t h; simp [timeSearch] at h
  | cons c rest ih =>
    intro t h
    have h0 : timeSearch (c :: rest) =
        match matchHHMMAt (c :: rest) with
        | some t0 => some t0
        | none => timeSearch rest := rfl
    rw [h0] at h
    cases hm : matchHHMMAt (c :: rest) with
    | some t0 =>
      rw [hm] at h
      have ht : t0 = t := Option.some_inj.mp h
      subst ht
      obtain ⟨hh, rest2, hdec⟩ := matchHHMMAt_some hm
      exact ⟨hh, [], rest2, by simpa using hdec⟩
    | none =>
      rw [hm] at h
      obtain ⟨hh, hi⟩ := ih h
      exact ⟨hh, infixOf_cons c hi⟩

theorem takeWhile_append_all {dig : Char → Bool} :
    ∀ (d1 : List Char) (x : Char) (r : List Char), d1.all dig = true →
      dig x = false →
      (d1 ++ x :: r).takeWhile dig = d1 ∧
        (d1 ++ x :: r).dropWhile dig = x :: r := by
  intro d1
  induction d1 with
  | nil =>
    intro x r _ hx
    constructor
    · simp [List.takeWhile_cons, hx]
    · simp [List.dropWhile_cons, hx]
  | cons c cs ih =>
    intro x r hall hx
    simp only [List.all_cons, Bool.and_eq_true] at hall
    obtain ⟨h1, h2⟩ := ih x r hall.2 hx
    constructor
    · simp [List.takeWhile_cons, hall.1, h1]
    · simp [List.dropWhile_cons, hall.1, h2]

theorem spanAt_some : ∀ {l : List Char} {t : String}, spanAt l = some t →
    (∃ rest, l = spanOpenLit.data ++ t.data ++ spanCloseLit.data ++ rest) ∧
      digitsColonDigits t.data = true := by
  intro l t h
  unfold spanAt at h
  split at h
  case isFalse => simp at h
  case isTrue hpre =>
    split at h
    · simp at h
    case isFalse hne =>
      split at h
      case h_2 => simp at h
      case h_1 r2 heq =>
        split at h
        · simp at h
        case isFalse hne2 =>
          split at h
          case isFalse => simp at h
          case isTrue hclose =>
            obtain ⟨q, hq⟩ := isPre_ex hpre
            have hdropq : l.drop spanOpenLit.data.length = q := by
              rw [hq]; exact List.drop_left _ _
            rw [hdropq] at heq hne h
            obtain ⟨rest2, hrest2⟩ := isPre_ex hclose
            have ht : t = ⟨q.takeWhile Char.isDigit ++
                ':' :: r2.takeWhile Char.isDigit⟩ := (Option.some_inj.mp h).symm
            have hqdec : q = q.takeWhile Char.isDigit ++ ':' :: r2 := by
              conv_lhs => rw [← List.takeWhile_append_dropWhile Char.isDigit q]
              rw [heq]
            have hr2dec : r2 = r2.takeWhile Char.isDigit ++
                (spanCloseLit.data ++ rest2) := by
              conv_lhs => rw [← List.takeWhile_append_dropWhile Char.isDigit r2]
              rw [hrest2]
            constructor
            · refine ⟨rest2, ?_⟩
              rw [hq, ht]
              conv_lhs => rw [hqdec]
              conv_lhs => rw [hr2dec]
              simp [List.append_assoc]
            · rw [ht]
              have hall1 : (q.takeWhile Char.isDigit).all Char.isDigit = true :=
                List.all_eq_true.mpr (fun x hx => List.mem_takeWhile_imp hx)
              have hcolon : Char.isDigit ':' = false := by decide
              obtain ⟨htk, hdw⟩ := takeWhile_append_all (q.takeWhile Char.isDigit)
                ':' (r2.takeWhile Char.isDigit) hall1 hcolon
              simp only [digitsColonDigits, htk, hdw]
              have hne3 : q.takeWhile Char.isDigit ≠ [] := by
                intro hc; rw [hc] at hne; simp at hne
              have hne4 : r2.takeWhile Char.isDigit ≠ [] := by
                intro hc; rw [hc] at hne2; simp at hne2
              have hall2 : (r2.takeWhile Char.isDigit).all Char.isDigit = true :=
                List.all_eq_true.mpr (fun x hx => List.mem_takeWhile_imp hx)
              simp [hne3, hne4, hall2]

theorem lazyFrom_some : ∀ {l : List Char} {g : List Char} {t : String},
    lazyFrom l = some (g, t) →
    (∃ rest, l = g ++ spanOpenLit.data ++ t.data ++ spanCloseLit.data ++ rest) ∧
      digitsColonDigits t.data = true := by
  intro l
  induction l with
  | nil => intro g t h; simp [lazyFrom] at h
  | cons c rest ih =>
    intro g t h
    have h0 : lazyFrom (c :: rest) =
        if c = '\n' then none
        else
          match spanAt rest with
          | some t0 => some ([c], t0)
          | none =>
            match lazyFrom rest with
            | some (g0, t0) => some (c :: g0, t0)
            | none => none := rfl
    rw [h0] at h
    split at h
    · simp at h
    cases hs : spanAt rest with
    | some t0 =>
      rw [hs] at h
      simp only [Option.some_inj, Prod.mk.injEq] at h
      obtain ⟨hg, ht⟩ := h
      subst hg; subst ht
      obtain ⟨⟨rest2, hdec⟩, hd⟩ := spanAt_some hs
      exact ⟨⟨rest2, by simp [hdec]⟩, hd⟩
    | none =>
      rw [hs] at h
      cases hl : lazyFrom rest with
      | none => rw [hl] at h; simp at h
      | some r0 =>
        obtain ⟨g0, t0⟩ := r0
        rw [hl] at h
        simp only [Option.some_inj, Prod.mk.injEq] at h
        obtain ⟨hg, ht⟩ := h
        subst ht
        obtain ⟨⟨rest2, hdec⟩, hd⟩ := ih hl
        refine ⟨⟨rest2, ?_⟩, hd⟩
        rw [← hg]
        simp [hdec]

theorem rojaSearch_some : ∀ {l : List Char} {g : List Char} {t : String},
    rojaSearch l = some (g, t) →
    (∃ pre rest, l = pre ++ g ++ spanOpenLit.data ++ t.data ++
      spanCloseLit.data ++ rest) ∧ digitsColonDigits t.data = true := by
  intro l
  induction l with
  | nil => intro g t h; simp [rojaSearch] at h
  | cons c rest ih =>
    intro g t h
    have h0 : rojaSearch (c :: rest) =
        match lazyFrom (c :: rest) with
        | some r => some r
        | none => rojaSearch rest := rfl
    rw [h0] at h
    cases hl : lazyFrom (c :: rest) with
    | some r0 =>
      rw [hl] at h
      have hr : r0 = (g, t) := Option.some_inj.mp h
      subst hr
      obtain ⟨⟨rest2, hdec⟩, hd⟩ := lazyFrom_some hl
      exact ⟨⟨[], rest2, by simpa using hdec⟩, hd⟩
    | none =>
      rw [hl] at h
      obtain ⟨⟨pre, rest2, hdec⟩, hd⟩ := ih h
      exact ⟨⟨c :: pre, rest2, by simp [hdec]⟩, hd⟩

/-! Lemmas connecting the DaddyLive loop to independent per-block
extraction, and showing its raising index calls are safe. -/

theorem daddyBlockEvent_def (s : Node) : daddyBlockEvent s =
    match timeSearch (textOf s) with
    | none => none
    | some hora =>
      some ⟨"", daddyTitle (textOf s) hora ((anchorsOf s).map textOfS), hora,
            (anchorsOf s).map daddyChannel⟩ := rfl

theorem daddyLoop_cons (s : Node) (rest : List Node) (acc : List Channel) :
    daddyLoop (s :: rest) acc =
      match timeSearch (textOf s) with
      | none => daddyLoop rest acc
      | some hora =>
        ⟨"", daddyTitle (textOf s) hora ((anchorsOf s).map textOfS), hora,
         acc ++ (anchorsOf s).map daddyChannel⟩ :: daddyLoop rest [] := rfl

theorem daddyLoop_eq_filterMap : ∀ (ss : List Node),
    daddyLoop ss [] = ss.filterMap daddyBlockEvent := by
  intro ss
  induction ss with
  | nil => rfl
  | cons s rest ih =>
    rw [daddyLoop_cons, List.filterMap_cons, daddyBlockEvent_def]
    cases ht : timeSearch (textOf s) with
    | none => exact ih
    | some hora => simp [ih]

theorem daddyBlockEventExc_ok (s : Node) :
    daddyBlockEventExc s = .ok (daddyBlockEvent s) := by
  rw [daddyBlockEvent_def]
  unfold daddyBlockEventExc
  cases ht : timeSearch (textOf s) with
  | none => simp [ht]
  | some hora =>
    obtain ⟨hh, hinf⟩ := timeSearch_some ht
    have hf1 : (pyFind hora.data (textOf s)).isSome = true :=
      pyFind_isSome_of_infixOf hinf
    cases hidx : pyFind hora.data (textOf s) with
    | none => rw [hidx] at hf1; simp at hf1
    | some idx =>
      cases hlinks : anchorsOf s with
      | nil =>
        simp only [hlinks, List.map_nil]
        simp [daddyTitle, pyIndexD, ht, hidx]
      | cons l0 ls =>
        have hmem : l0 ∈ anchorsOf s := by
          rw [hlinks]; exact List.mem_cons_self l0 ls
        have hinf2 : InfixOf (textOf l0) (textOf s) :=
          textOf_infixOf_findAll hmem
        have hf2 := pyFind_isSome_of_infixOf hinf2
        cases hi0 : pyFind (textOf l0) (textOf s) with
        | none => rw [hi0] at hf2; simp at hf2
        | some i0 =>
          simp only [hlinks, List.map_cons]
          have hdata : (textOfS l0).data = textOf l0 := rfl
          simp [daddyTitle, pyIndexD, ht, hidx, hdata, hi0]

/-! Case lemmas for the Rojadirecta per-item extraction. -/

theorem rojaItemEvent_noAnchor {item : Node}
    (h : firstAnchor item = none) : rojaItemEvent item = none := by
  unfold rojaItemEvent
  rw [h]

theorem rojaItemEvent_primary {item lnk : Node} {g1 : List Char} {t : String}
    (h1 : firstAnchor item = some lnk)
    (h2 : rojaSearch (renderC lnk) = some (g1, t)) :
    rojaItemEvent item =
      some ⟨countryOf item, ⟨removeAll (pyStrip g1) placeholderLit.data⟩, t,
            rojaChannels item⟩ := by
  unfold rojaItemEvent
  rw [h1]
  simp [h2]

theorem rojaItemEvent_fallback {item lnk : Node}
    (h1 : firstAnchor item = some lnk)
    (h2 : rojaSearch (renderC lnk) = none) :
    rojaItemEvent item =
      some ⟨countryOf item,
            ⟨removeAll (pyStrip (removeAll (pyStrip (textOf lnk))
              (fallbackTime lnk).data)) placeholderLit.data⟩,
            fallbackTime lnk, rojaChannels item⟩ := by
  unfold rojaItemEvent
  rw [h1]
  simp [h2]

theorem rojaItemEvent_channels {item : Node} {ev : Event}
    (h : rojaItemEvent item = some ev) : ev.channels = rojaChannels item := by
  cases ha : firstAnchor item with
  | none => rw [rojaItemEvent_noAnchor ha] at h; simp at h
  | some lnk =>
    cases hs : rojaSearch (renderC lnk) with
    | some r =>
      obtain ⟨g1, t⟩ := r
      rw [rojaItemEvent_primary ha hs] at h
      rw [← Option.some_inj.mp h]
    | none =>
      rw [rojaItemEvent_fallback ha hs] at h
      rw [← Option.some_inj.mp h]

/-! Lemmas about the ordered-dict model. -/

theorem dictGet?_insert_self {β : Type} :
    ∀ (m : List (String × β)) (k : String) (v : β),
      dictGet? (dictInsert m k v) k = some v := by
  intro m
  induction m with
  | nil => intro k v; simp [dictInsert, dictGet?, List.find?]
  | cons e t ih =>
    intro k v
    by_cases he : e.1 = k
    · simp [dictInsert, he, dictGet?, List.find?]
    · simp only [dictInsert, he, if_false]
      simp only [dictGet?, List.find?_cons]
      have hd : (decide (e.1 = k)) = false := by simp [he]
      simp only [hd]
      exact ih k v

theorem dictGet?_insert_ne {β : Type} :
    ∀ (m : List (String × β)) (k1 : String) (v : β) (k : String), k ≠ k1 →
      dictGet? (dictInsert m k1 v) k = dictGet? m k := by
  intro m
  induction m with
  | nil =>
    intro k1 v k hne
    simp [dictInsert, dictGet?, List.find?, Ne.symm hne]
  | cons e t ih =>
    intro k1 v k hne
    by_cases he : e.1 = k1
    · simp only [dictInsert, he, if_true]
      simp only [dictGet?, List.find?_cons]
      have h1 : (decide (k1 = k)) = false := by simp [Ne.symm hne]
      have h2 : (decide (e.1 = k)) = false := by simp [he, Ne.symm hne]
      simp [h1, h2]
    · simp only [dictInsert, he, if_false]
      simp only [dictGet?, List.find?_cons]
      cases hd : (decide (e.1 = k)) with
      | true => simp
      | false =>
        simp only []
        exact ih k1 v k hne

theorem dictInsert_not_mem {β : Type} :
    ∀ (m : List (String × β)) (k : String) (v : β),
      k ∉ m.map Prod.fst → dictInsert m k v = m ++ [(k, v)] := by
  intro m
  induction m with
  | nil => intro k v _; rfl
  | cons e t ih =>
    intro k v hk
    simp only [List.map_cons, List.mem_cons] at hk
    push_neg at hk
    simp only [dictInsert, Ne.symm hk.1, if_false]
    rw [ih k v hk.2]
    simp

theorem dictUpdate_cons {β : Type} (m : List (String × β))
    (e : String × β) (t : List (String × β)) :
    dictUpdate m (e :: t) = dictUpdate (dictInsert m e.1 e.2) t := rfl

theorem dictGet?_update_not_mem {β : Type} :
    ∀ (upd m : List (String × β)) (k : String), k ∉ upd.map Prod.fst →
      dictGet? (dictUpdate m upd) k = dictGet? m k := by
  intro upd
  induction upd with
  | nil => intro m k _; rfl
  | cons e t ih =>
    intro m k hk
    simp only [List.map_cons, List.mem_cons] at hk
    push_neg at hk
    rw [dictUpdate_cons, ih _ k hk.2, dictGet?_insert_ne m e.1 e.2 k hk.1]

theorem dictGet?_update_mem {β : Type} :
    ∀ (upd m : List (String × β)) (k : String) (v : β),
      (upd.map Prod.fst).Nodup → dictGet? upd k = some v →
      dictGet? (dictUpdate m upd) k = some v := by
  intro upd
  induction upd with
  | nil => intro m k v _ hg; simp [dictGet?, List.find?] at hg
  | cons e t ih =>
    intro m k v hnd hg
    simp only [List.map_cons, List.nodup_cons] at hnd
    rw [dictUpdate_cons]
    by_cases he : e.1 = k
    · have hv : v = e.2 := by
        simp only [dictGet?, List.find?_cons, he] at hg
        simp at hg
        exact hg.symm
      rw [hv, he]
      rw [dictGet?_update_not_mem t _ k (by rw [← he]; exact hnd.1)]
      exact dictGet?_insert_self m k e.2
    · have hg2 : dictGet? t k = some v := by
        simp only [dictGet?, List.find?_cons] at hg
        have hd : (decide (e.1 = k)) = false := by simp [he]
        rw [hd] at hg
        exact hg
      exact ih _ k v hnd.2 hg2

/-! Lemmas about the registry model. -/

theorem registerScraper_not_mem {α : Type} :
    ∀ (m : List (String × α)) (pat : String) (cls : α),
      pat ∉ m.map Prod.fst → registerScraper m pat cls = m ++ [(pat, cls)] := by
  intro m
  induction m with
  | nil => intro pat cls _; rfl
  | cons e t ih =>
    intro pat cls hk
    simp only [List.map_cons, List.mem_cons] at hk
    push_neg at hk
    simp only [registerScraper, Ne.symm hk.1, if_false]
    rw [ih pat cls hk.2]
    simp

theorem registerScraper_mem_keys {α : Type} :
    ∀ (m : List (String × α)) (pat : String) (cls : α) (e : String × α),
      e ∈ registerScraper m pat cls → e.1 ∈ m.map Prod.fst ∨ e.1 = pat := by
  intro m
  induction m with
  | nil =>
    intro pat cls e he
    simp only [registerScraper, List.mem_singleton] at he
    right
    rw [he]
  | cons e0 t ih =>
    intro pat cls e he
    by_cases h0 : e0.1 = pat
    · simp only [registerScraper, h0, if_true, List.mem_cons] at he
      rcases he with h1 | h2
      · right; rw [h1]
      · left; exact List.mem_map_of_mem Prod.fst (List.mem_cons_of_mem e0 h2)
    · simp only [registerScraper, h0, if_false, List.mem_cons] at he
      rcases he with h1 | h2
      · left; simp [h1]
      · rcases ih pat cls e h2 with h3 | h4
        · left; simp only [List.map_cons, List.mem_cons]; right; exact h3
        · right; exact h4

theorem buildRegistry_aux_eq {α : Type} :
    ∀ (calls init : List (String × α)),
      (∀ c ∈ calls, c.1 ∉ init.map Prod.fst) →
      (calls.map Prod.fst).Nodup →
      calls.foldl (fun m c => registerScraper m c.1 c.2) init =
        init ++ calls := by
  intro calls
  induction calls with
  | nil => intro init _ _; simp
  | cons c t ih =>
    intro init hdisj hnd
    simp only [List.map_cons, List.nodup_cons] at hnd
    simp only [List.foldl_cons]
    rw [registerScraper_not_mem init c.1 c.2
      (hdisj c (List.mem_cons_self c t))]
    rw [ih (init ++ [(c.1, c.2)]) ?_ hnd.2]
    · simp
    · intro c2 hc2
      simp only [List.map_append, List.mem_append, List.map_cons,
        List.map_nil, List.mem_singleton]
      push_neg
      constructor
      · exact hdisj c2 (List.mem_cons_of_mem c hc2)
      · intro hc
        exact hnd.1 (by rw [← hc]; exact List.mem_map_of_mem Prod.fst hc2)

theorem buildRegistry_eq {α : Type} (calls : List (String × α))
    (hnd : (calls.map Prod.fst).Nodup) : buildRegistry calls = calls := by
  have h := buildRegistry_aux_eq calls [] (by simp) hnd
  simpa [buildRegistry] using h

theorem buildRegistry_aux_keys {α : Type} :
    ∀ (calls init : List (String × α)) (e : String × α),
      e ∈ calls.foldl (fun m c => registerScraper m c.1 c.2) init →
      e.1 ∈ init.map Prod.fst ∨ e.1 ∈ calls.map Prod.fst := by
  intro calls
  induction calls with
  | nil => intro init e he; left; exact List.mem_map_of_mem Prod.fst he
  | cons c t ih =>
    intro init e he
    simp only [List.foldl_cons] at he
    rcases ih (registerScraper init c.1 c.2) e he with h1 | h2
    · simp only [List.map_cons] at h1 ⊢
      rcases List.mem_map.mp h1 with ⟨e2, he2, heq⟩
      rcases registerScraper_mem_keys init c.1 c.2 e2 he2 with h3 | h4
      · left; rw [← heq]; exact h3
      · right; rw [← heq, h4]; exact List.mem_cons_self _ _
    · right; simp only [List.map_cons, List.mem_cons]; right; exact h2

/-! Lemmas about the manager operations. -/

theorem scrapeUrl_def (w : World) (mgr : Manager) (url : String) :
    scrapeUrl w mgr url =
      match getScraperForUrl mgr.scraperMap url with
      | none => (mgr, [])
      | some k =>
        match w url with
        | none => (mgr, [])
        | some doc =>
          ({ mgr with
             results := dictInsert mgr.results url (runScraper k (some doc)) },
           runScraper k (some doc)) := rfl

theorem scrapeUrl_scraperMap (w : World) (mgr : Manager) (url : String) :
    (scrapeUrl w mgr url).1.scraperMap = mgr.scraperMap := by
  rw [scrapeUrl_def]
  cases h1 : getScraperForUrl mgr.scraperMap url with
  | none => rfl
  | some k =>
    cases h2 : w url with
    | none => rfl
    | some doc => rfl

theorem scrapeUrl_snd_congr (w : World) (m1 m2 : Manager) (url : String)
    (h : m1.scraperMap = m2.scraperMap) :
    (scrapeUrl w m1 url).2 = (scrapeUrl w m2 url).2 := by
  rw [scrapeUrl_def, scrapeUrl_def, h]
  cases h1 : getScraperForUrl m2.scraperMap url with
  | none => rfl
  | some k =>
    cases h2 : w url with
    | none => rfl
    | some doc => rfl

theorem smLoop_spec (w : World) : ∀ (urls : List String) (mgr : Manager)
    (acc : List (String × List Event)),
    (acc.map Prod.fst ++ urls).Nodup →
    (smLoop w mgr acc urls).1.scraperMap = mgr.scraperMap ∧
    (smLoop w mgr acc urls).2.map Prod.fst = acc.map Prod.fst ++ urls ∧
    (∀ url ∈ urls, dictGet? (smLoop w mgr acc urls).2 url =
        some ((scrapeUrl w mgr url).2)) ∧
    (∀ k ∈ acc.map Prod.fst,
        dictGet? (smLoop w mgr acc urls).2 k = dictGet? acc k) := by
  intro urls
  induction urls with
  | nil =>
    intro mgr acc _
    refine ⟨rfl, by simp [smLoop], by simp, fun k _ => rfl⟩
  | cons url rest ih =>
    intro mgr acc hnd
    have hstep : smLoop w mgr acc (url :: rest) =
        smLoop w (scrapeUrl w mgr url).1
          (dictInsert acc url (scrapeUrl w mgr url).2) rest := rfl
    obtain ⟨hndacc, hndur, hdisj⟩ := List.nodup_append.mp hnd
    have hurlnot : url ∉ acc.map Prod.fst := by
      intro hc
      exact hdisj hc (List.mem_cons_self url rest)
    have hkeys : (dictInsert acc url (scrapeUrl w mgr url).2).map Prod.fst =
        acc.map Prod.fst ++ [url] := by
      rw [dictInsert_not_mem acc url _ hurlnot]
      simp
    have hnd2 : ((dictInsert acc url (scrapeUrl w mgr url).2).map Prod.fst ++
        rest).Nodup := by
      rw [hkeys]
      have : acc.map Prod.fst ++ url :: rest =
          (acc.map Prod.fst ++ [url]) ++ rest := by simp
      rw [← this]
      exact hnd
    obtain ⟨ihmap, ihfst, ihlook, ihacc⟩ :=
      ih (scrapeUrl w mgr url).1 (dictInsert acc url (scrapeUrl w mgr url).2)
        hnd2
    refine ⟨?_, ?_, ?_, ?_⟩
    · rw [hstep, ihmap, scrapeUrl_scraperMap]
    · rw [hstep, ihfst, hkeys]
      simp
    · intro url0 h0
      rcases List.mem_cons.mp h0 with h1 | h2
      · subst h1
        have hmem : url0 ∈ (dictInsert acc url0
            (scrapeUrl w mgr url0).2).map Prod.fst := by
          rw [hkeys]
          simp
        rw [hstep, ihacc url0 hmem, dictGet?_insert_self]
      · rw [hstep, ihlook url0 h2]
        congr 1
        exact scrapeUrl_snd_congr w (scrapeUrl w mgr url).1 mgr url0
          (scrapeUrl_scraperMap w mgr url)
    · intro k hk
      have hkne : k ≠ url := by
        intro hc
        rw [hc] at hk
        exact hurlnot hk
      have hmem : k ∈ (dictInsert acc url
          (scrapeUrl w mgr url).2).map Prod.fst := by
        rw [hkeys]
        exact List.mem_append.mpr (Or.inl hk)
      rw [hstep, ihacc k hmem, dictGet?_insert_ne acc url _ k hkne]

/-! Lemmas for the JSON round trip. -/

theorem mapM_some_of_each {γ δ : Type} :
    ∀ (l : List γ) (f : γ → δ) (g : δ → Option γ),
      (∀ x ∈ l, g (f x) = some x) → (l.map f).mapM g = some l := by
  intro l
  induction l with
  | nil => intro f g _; rfl
  | cons x t ih =>
    intro f g hall
    simp only [List.map_cons]
    rw [List.mapM_cons]
    rw [hall x (List.mem_cons_self x t), ih f g
      (fun y hy => hall y (List.mem_cons_of_mem x hy))]
    rfl

theorem jsonToChannel_roundtrip (c : Channel) :
    jsonToChannel (channelToJson c) = some c := by
  obtain ⟨n, u⟩ := c
  cases u <;> rfl

theorem jsonToEvent_roundtrip (e : Event) :
    jsonToEvent (eventToJson e) = some e := by
  obtain ⟨cl, ti, tm, cs⟩ := e
  have h : (cs.map channelToJson).mapM jsonToChannel = some cs :=
    mapM_some_of_each cs channelToJson jsonToChannel
      (fun c _ => jsonToChannel_roundtrip c)
  simp only [eventToJson, jsonToEvent]
  rw [h]
  rfl

/-! The claims. -/

/-- Claim C1, counterexample: a results map with one event that has a
channels list of length zero produces zero playlist rows, while the
claimed count max of one and the channel count is one. -/
theorem claim1_cex :
    (m3uRows [("http://x/", [⟨"", "t", "20:00", []⟩])]).length = 0 ∧
    claimRowCount [("http://x/", [⟨"", "t", "20:00", []⟩])] = 1 := by
  constructor <;> rfl

/-- Claim C1, amended: the playlist exporter emits exactly one row per
channel, so the row count is the sum over all events of the number of
channels; an event with zero channels contributes zero rows, because
extractor events always carry their channels key and the single-row
branch of the exporter only applies to records without that key. -/
theorem claim1_rowcount (rs : List (String × List Event)) :
    (m3uRows rs).length =
      (rs.map (fun kv => (kv.2.map (fun ev => ev.channels.length)).sum)).sum := by
  simp [m3uRows, List.length_flatten, List.map_map, Function.comp_def,
    eventRows]

/-- Claim C3: the DaddyLive extraction equals independent per-block
extraction, and every emitted event carries exactly the channels built
from the anchors of its own block, so channels accumulated for one
block never leak into the event of a later block. -/
theorem claim3_no_leakage :
    (∀ doc : Node, daddyScrape (some doc) =
      (findAll (tagP "strong") doc).filterMap daddyBlockEvent) ∧
    (∀ (s : Node) (ev : Event), daddyBlockEvent s = some ev →
      ev.channels = (anchorsOf s).map daddyChannel) := by
  constructor
  · intro doc
    exact daddyLoop_eq_filterMap (findAll (tagP "strong") doc)
  · intro s ev h
    rw [daddyBlockEvent_def] at h
    cases ht : timeSearch (textOf s) with
    | none => rw [ht] at h; simp at h
    | some hora =>
      rw [ht] at h
      rw [← Option.some_inj.mp h]

/-- Claim C3, witness: the two-link block yields exactly its own two
channels. -/
theorem claim3_witness :
    evTwoLinks.channels = (anchorsOf strongTwoLinks).map daddyChannel :=
  claim3_no_leakage.2 strongTwoLinks evTwoLinks (by decide)

/-- Decoding the JSON shape of any results map returns exactly that
map: keys in order, event arrays in order, every string field, the
empty grouping label and the unspecified-time sentinel included, and
null channel urls preserved. -/
theorem jsonToResults_resultsToJson (rs : List (String × List Event)) :
    jsonToResults (resultsToJson rs) = some rs := by
  simp only [resultsToJson, jsonToResults]
  have h := mapM_some_of_each rs
    (fun kv => (kv.1, Json.arr (kv.2.map eventToJson)))
    (fun kv =>
      match kv.2 with
      | .arr evs => (evs.mapM jsonToEvent).map (fun l => (kv.1, l))
      | _ => none)
    ?_
  · exact h
  · intro kv _
    simp only []
    rw [mapM_some_of_each kv.2 eventToJson jsonToEvent
      (fun e _ => jsonToEvent_roundtrip e)]
    rfl

/-- Claim C8: extraction is total. The two raising index calls of the
DaddyLive block loop are unreachable, so the raising model always
returns the pure value; with no loaded document both extractors return
the empty list; and a node the per-item or per-block extraction
rejects is skipped while extraction continues over the remaining
nodes. -/
theorem claim8_extract_total :
    (∀ s : Node, daddyBlockEventExc s = .ok (daddyBlockEvent s)) ∧
    (rojaScrape none = [] ∧ daddyScrape none = []) ∧
    (∀ (pre : List Node) (item : Node) (post : List Node),
      rojaItemEvent item = none →
      (pre ++ item :: post).filterMap rojaItemEvent =
        (pre ++ post).filterMap rojaItemEvent) ∧
    (∀ (pre : List Node) (s : Node) (post : List Node),
      daddyBlockEvent s = none →
      daddyLoop (pre ++ s :: post) [] = daddyLoop (pre ++ post) []) := by
  refine ⟨daddyBlockEventExc_ok, ⟨rfl, rfl⟩, ?_, ?_⟩
  · intro pre item post h
    simp [List.filterMap_append, List.filterMap_cons, h]
  · intro pre s post h
    rw [daddyLoop_eq_filterMap, daddyLoop_eq_filterMap]
    simp [List.filterMap_append, List.filterMap_cons, h]

/-- Claim C8, witness: a menu item with no anchor contributes no event
while extraction of the surrounding items continues. -/
theorem claim8_witness :
    ([Node.elem "li" [] [.text "x"], liMenu].filterMap rojaItemEvent) =
      ([liMenu].filterMap rojaItemEvent) :=
  claim8_extract_total.2.2.1 [] (Node.elem "li" [] [.text "x"]) [liMenu]
    (by decide)

/-- Claim C7: scrape_url leaves the results map untouched and returns
the empty list when no registered pattern resolves or loading fails;
when both succeed it stores exactly the extractor output under the URL
key and returns it. -/
theorem claim7_scrape_url (w : World) (mgr : Manager) (url : String) :
    ((getScraperForUrl mgr.scraperMap url = none ∨ w url = none) →
      scrapeUrl w mgr url = (mgr, [])) ∧
    (∀ (k : ScraperKind) (doc : Node),
      getScraperForUrl mgr.scraperMap url = some k → w url = some doc →
      scrapeUrl w mgr url =
        ({ mgr with
           results := dictInsert mgr.results url (runScraper k (some doc)) },
         runScraper k (some doc)) ∧
      dictGet? (scrapeUrl w mgr url).1.results url =
        some (runScraper k (some doc))) := by
  constructor
  · intro hfail
    rw [scrapeUrl_def]
    rcases hfail with h1 | h2
    · rw [h1]
    · cases hres : getScraperForUrl mgr.scraperMap url with
      | none => rfl
      | some k => rw [h2]
  · intro k doc h1 h2
    have heq : scrapeUrl w mgr url =
        ({ mgr with
           results := dictInsert mgr.results url (runScraper k (some doc)) },
         runScraper k (some doc)) := by
      rw [scrapeUrl_def, h1, h2]
    refine ⟨heq, ?_⟩
    rw [heq]
    exact dictGet?_insert_self mgr.results url (runScraper k (some doc))


/-- Claim C7, witness: an unmatched URL leaves the example manager
unchanged and returns the empty list. -/
theorem claim7_witness :
    scrapeUrl wExample mgrExample "http://other.example/" = (mgrExample, []) :=
  (claim7_scrape_url wExample mgrExample "http://other.example/").1
    (Or.inl (by decide))

/-- Claim C10, counterexample: with a fresh manager, two registered
patterns, the first URL failing to load and the second succeeding, the
manager results map ends with the keys in the order second URL first,
not submission order, because successes are stored during the loop and
failures only by the final update. -/
theorem claim10_cex :
    ((scrapeMultipleUrls
        (fun u => if u = "http://b/" then some docEmpty else none)
        ⟨[("a", .roja), ("b", .roja)], []⟩
        ["http://a/", "http://b/"]).1.results.map Prod.fst =
      ["http://b/", "http://a/"]) ∧
    (["http://b/", "http://a/"] ≠ ["http://a/", "http://b/"]) := by
  constructor
  · rfl
  · decide

/-- Claim C10, amended: after scrape_multiple_urls over distinct URLs,
the returned map has exactly the submitted URLs as keys in submission
order, and both the returned map and the manager results map send
every submitted URL to the value scrape_url returns for it, which is
the empty list whenever the URL resolves to no scraper or fails to
load; the key order of the manager results map, however, is not
submission order in general. -/
theorem claim10_scrape_many (w : World) (mgr : Manager)
    (urls : List String) (hnd : urls.Nodup) :
    ((scrapeMultipleUrls w mgr urls).2.map Prod.fst = urls) ∧
    (∀ url ∈ urls,
      dictGet? (scrapeMultipleUrls w mgr urls).2 url =
        some ((scrapeUrl w mgr url).2) ∧
      dictGet? (scrapeMultipleUrls w mgr urls).1.results url =
        some ((scrapeUrl w mgr url).2)) ∧
    (∀ url : String,
      (getScraperForUrl mgr.scraperMap url = none ∨ w url = none) →
      (scrapeUrl w mgr url).2 = []) := by
  obtain ⟨hmap, hfst, hlook, hacc⟩ :=
    smLoop_spec w urls mgr [] (by simpa using hnd)
  have hout2 : (scrapeMultipleUrls w mgr urls).2 = (smLoop w mgr [] urls).2 :=
    rfl
  have hout1 : (scrapeMultipleUrls w mgr urls).1.results =
      dictUpdate (smLoop w mgr [] urls).1.results (smLoop w mgr [] urls).2 :=
    rfl
  refine ⟨?_, ?_, ?_⟩
  · rw [hout2, hfst]; simp
  · intro url hu
    have h1 : dictGet? (smLoop w mgr [] urls).2 url =
        some ((scrapeUrl w mgr url).2) := hlook url hu
    refine ⟨by rw [hout2]; exact h1, ?_⟩
    rw [hout1]
    apply dictGet?_update_mem
    · rw [hfst]; simpa using hnd
    · exact h1
  · intro url hfail
    have h := (claim7_scrape_url w mgr url).1 hfail
    rw [h]

/-- Claim C10, witness: both maps of the example manager map the
failing URL to the empty list after a two-URL run. -/
theorem claim10_witness :
    dictGet? (scrapeMultipleUrls wExample mgrExample
        ["http://daddy.example/", "http://daddy.example/fail/"]).2
      "http://daddy.example/fail/" = some [] ∧
    dictGet? (scrapeMultipleUrls wExample mgrExample
        ["http://daddy.example/", "http://daddy.example/fail/"]).1.results
      "http://daddy.example/fail/" = some [] := by
  have h := (claim10_scrape_many wExample mgrExample
    ["http://daddy.example/", "http://daddy.example/fail/"] (by decide)).2.1
    "http://daddy.example/fail/" (by decide)
  have hval : (scrapeUrl wExample mgrExample "http://daddy.example/fail/").2 =
      [] := by decide
  rw [hval] at h
  exact h

/-- Claim C2, counterexample: with the pattern 9091 registered, the
resolver returns its class for a URL whose hostname is foo, because
the code matches patterns against the netloc, which keeps the port;
the claim as stated requires none here since 9091 is not a substring
of the hostname. -/
theorem claim2_cex :
    hostnameOf "http://foo:9091/x" = "foo" ∧
    containsSubS "9091" (hostnameOf "http://foo:9091/x") = false ∧
    getScraperForUrl (buildRegistry [("9091", ScraperKind.daddy)])
      "http://foo:9091/x" = some ScraperKind.daddy := by
  refine ⟨rfl, ?_, rfl⟩
  decide

/-- Claim C2, amended: for register calls with pairwise distinct
patterns, the resolver returns the class of the first registered
pattern, in registration order, that is a substring of the netloc of
the URL, the hostname together with any userinfo and port; and for any
call sequence it returns none when no registered pattern is a
substring of that netloc. -/
theorem claim2_resolve {α : Type} (calls : List (String × α))
    (url : String) :
    ((calls.map Prod.fst).Nodup →
      getScraperForUrl (buildRegistry calls) url =
        (calls.find? (fun c => containsSubS c.1 (netlocOf url))).map (·.2)) ∧
    ((∀ c ∈ calls, containsSubS c.1 (netlocOf url) = false) →
      getScraperForUrl (buildRegistry calls) url = none) := by
  constructor
  · intro hnd
    rw [buildRegistry_eq calls hnd]
    rfl
  · intro hnone
    have hfind : (buildRegistry calls).find?
        (fun e => containsSubS e.1 (netlocOf url)) = none := by
      rw [List.find?_eq_none]
      intro e he
      have hk := buildRegistry_aux_keys calls [] e (by simpa [buildRegistry]
        using he)
      simp only [List.map_nil, List.not_mem_nil, false_or] at hk
      obtain ⟨c, hc, hceq⟩ := List.mem_map.mp hk
      intro hcontra
      have hfalse := hnone c hc
      rw [hceq] at hfalse
      rw [hfalse] at hcontra
      exact absurd hcontra (by simp)
    simp [getScraperForUrl, hfind]

/-- Claim C2, witness: with two distinct patterns registered, the
resolver agrees with the first-match search over the call list for a
URL matching the second pattern. -/
theorem claim2_witness :
    getScraperForUrl
      (buildRegistry [("roja", ScraperKind.roja), ("daddy", ScraperKind.daddy)])
      "http://www.daddylive.example/" =
    (([("roja", ScraperKind.roja), ("daddy", ScraperKind.daddy)]).find?
      (fun c => containsSubS c.1 (netlocOf "http://www.daddylive.example/"))).map
        (·.2) :=
  (claim2_resolve [("roja", ScraperKind.roja), ("daddy", ScraperKind.daddy)]
    "http://www.daddylive.example/").1 (by decide)

/-! Inversion helpers for the per-block and per-item extractions. -/

theorem daddyBlockEvent_inv {s : Node} {ev : Event}
    (h : daddyBlockEvent s = some ev) :
    ∃ hora, timeSearch (textOf s) = some hora ∧ ev.time = hora ∧
      ev.title = daddyTitle (textOf s) hora ((anchorsOf s).map textOfS) ∧
      ev.channels = (anchorsOf s).map daddyChannel ∧
      ev.country_league = "" := by
  rw [daddyBlockEvent_def] at h
  cases ht : timeSearch (textOf s) with
  | none => rw [ht] at h; simp at h
  | some hora =>
    rw [ht] at h
    have hev := Option.some_inj.mp h
    exact ⟨hora, rfl, by rw [← hev], by rw [← hev], by rw [← hev],
           by rw [← hev]⟩

theorem mem_daddyScrape {soup : Option Node} {ev : Event}
    (h : ev ∈ daddyScrape soup) :
    ∃ doc, soup = some doc ∧
      ∃ s ∈ findAll (tagP "strong") doc, daddyBlockEvent s = some ev := by
  cases soup with
  | none => simp [daddyScrape] at h
  | some doc =>
    refine ⟨doc, rfl, ?_⟩
    have h2 : daddyScrape (some doc) =
        (findAll (tagP "strong") doc).filterMap daddyBlockEvent :=
      daddyLoop_eq_filterMap _
    rw [h2] at h
    obtain ⟨s, hs, hbe⟩ := List.mem_filterMap.mp h
    exact ⟨s, hs, hbe⟩

/-- Claim C5, counterexample: a menu item whose time-marker span holds
the text pronto defeats the primary pattern, and the fallback copies
that text into the time field, which is neither of the two claimed
forms. -/
theorem claim5_cex :
    ((rojaScrape (some docSpanText)).map Event.time = ["pronto"]) ∧
    isHHMM "pronto" = false ∧ "pronto" ≠ sentinel := by
  refine ⟨rfl, by decide, by decide⟩

/-- Claim C5, amended: every DaddyLive time is exactly two digits,
colon, two digits; a Rojadirecta time is either a one-or-more digits,
colon, one-or-more digits capture of the primary pattern, or the
verbatim text of the first time-marker span of the event anchor, or
the sentinel exactly when the primary pattern fails and no such span
exists. -/
theorem claim5_time_forms :
    (∀ (soup : Option Node) (ev : Event), ev ∈ daddyScrape soup →
      isHHMM ev.time = true) ∧
    (∀ (item : Node) (ev : Event), rojaItemEvent item = some ev →
      digitsColonDigits ev.time.data = true ∨
      (∃ lnk, firstAnchor item = some lnk ∧
        ((∃ sp, firstSpanT lnk = some sp ∧ ev.time = textOfS sp) ∨
         (firstSpanT lnk = none ∧ ev.time = sentinel)))) := by
  constructor
  · intro soup ev h
    obtain ⟨doc, _, s, _, hbe⟩ := mem_daddyScrape h
    obtain ⟨hora, ht, htime, _⟩ := daddyBlockEvent_inv hbe
    rw [htime]
    exact (timeSearch_some ht).1
  · intro item ev h
    cases ha : firstAnchor item with
    | none => rw [rojaItemEvent_noAnchor ha] at h; simp at h
    | some lnk =>
      cases hs : rojaSearch (renderC lnk) with
      | some r =>
        obtain ⟨g1, t⟩ := r
        rw [rojaItemEvent_primary ha hs] at h
        left
        rw [← Option.some_inj.mp h]
        exact (rojaSearch_some hs).2
      | none =>
        rw [rojaItemEvent_fallback ha hs] at h
        right
        refine ⟨lnk, rfl, ?_⟩
        cases hsp : firstSpanT lnk with
        | some sp =>
          left
          refine ⟨sp, rfl, ?_⟩
          rw [← Option.some_inj.mp h]
          show fallbackTime lnk = textOfS sp
          unfold fallbackTime
          rw [hsp]
        | none =>
          right
          refine ⟨rfl, ?_⟩
          rw [← Option.some_inj.mp h]
          show fallbackTime lnk = sentinel
          unfold fallbackTime
          rw [hsp]

/-- Claim C5, witness: the time of the event of the repeated-time
block has the two-digit form. -/
theorem claim5_witness : isHHMM evTimeInTitle.time = true :=
  claim5_time_forms.1 (some docTimeInTitle) evTimeInTitle (by decide)

/-- Claim C6, counterexample: a DaddyLive link with surrounding spaces
in its text and no href yields a channel whose name is the raw
untrimmed text and whose url is the Python None, not the empty
string. -/
theorem claim6_cex :
    daddyScrape (some docRawChannel) =
      [⟨"", "Game", "21:30", [⟨" Canal ", none⟩]⟩] ∧
    pyStripS " Canal " ≠ " Canal " ∧
    ((none : Option String) ≠ some "") := by
  refine ⟨rfl, by decide, by decide⟩

/-- Claim C6, amended: every Rojadirecta channel is read off its own
source anchor — the first anchor of one subitem list item of the menu
item's first nested list — carrying that anchor's trimmed text as name
and a string url that is the anchor's href, the empty string when that
anchor has no href; every DaddyLive channel is read off one anchor of
its own block, carrying the raw, untrimmed anchor text as name and the
href attribute value as url, which is null, not the empty string, when
the anchor has no href. -/
theorem claim6_channel_fields :
    (∀ (item : Node) (ev : Event) (ch : Channel),
      rojaItemEvent item = some ev → ch ∈ ev.channels →
      ∃ ul li a, firstUl item = some ul ∧ li ∈ findAll subitemP ul ∧
        firstAnchor li = some a ∧ ch.name = pyStripS (textOfS a) ∧
        ch.url = some ((getAttr a "href").getD "")) ∧
    (∀ (s : Node) (ev : Event) (ch : Channel),
      daddyBlockEvent s = some ev → ch ∈ ev.channels →
      ∃ a : Node, a ∈ anchorsOf s ∧ ch.name = textOfS a ∧
        ch.url = getAttr a "href") := by
  constructor
  · intro item ev ch hev hch
    rw [rojaItemEvent_channels hev] at hch
    unfold rojaChannels at hch
    cases hul : firstUl item with
    | none => rw [hul] at hch; simp at hch
    | some ul =>
      rw [hul] at hch
      obtain ⟨li, hmem, hli⟩ := List.mem_filterMap.mp hch
      unfold rojaChannel at hli
      cases hfa : firstAnchor li with
      | none => rw [hfa] at hli; simp at hli
      | some a =>
        rw [hfa] at hli
        have := Option.some_inj.mp hli
        exact ⟨ul, li, a, rfl, hmem, hfa, by rw [← this], by rw [← this]⟩
  · intro s ev ch hev hch
    obtain ⟨hora, _, _, _, hchan, _⟩ := daddyBlockEvent_inv hev
    rw [hchan] at hch
    obtain ⟨a, ha, hcha⟩ := List.mem_map.mp hch
    exact ⟨a, ha, by rw [← hcha]; rfl, by rw [← hcha]; rfl⟩

/-- Claim C6, witness: the href-less second channel of the well-formed
menu item traces to the first anchor of its own subitem list item, and
its url is the empty string. -/
theorem claim6_witness :
    ∃ ul li a, firstUl liMenu = some ul ∧ li ∈ findAll subitemP ul ∧
      firstAnchor li = some a ∧
      (Channel.mk "Canal2" (some "")).name = pyStripS (textOfS a) ∧
      (Channel.mk "Canal2" (some "")).url =
        some ((getAttr a "href").getD "") := by
  have hev : rojaItemEvent liMenu =
      some ⟨"futbol", "Real Madrid vs Barcelona", "20:00",
            [⟨"Canal1", some "http://c1"⟩, ⟨"Canal2", some ""⟩]⟩ := by decide
  exact claim6_channel_fields.1 liMenu _ _ hev (by decide)

/-- Claim C4, counterexample: titles can contain the time substring
and raw channel texts in both extractors. The repeated-time block
emits a title containing its time; the two-link block emits a title
containing the text of its second channel; deleting the span time from
an engineered Rojadirecta anchor glues a fresh occurrence of the time
into the title; and a menu item whose first anchor is a channel anchor
emits a title equal to that channel name. -/
theorem claim4_cex :
    (daddyScrape (some docTimeInTitle) = [evTimeInTitle] ∧
      containsSubS evTimeInTitle.time evTimeInTitle.title = true) ∧
    (daddyScrape (some docChanInTitle) = [evTwoLinks] ∧
      containsSubS "Canal2" evTwoLinks.title = true ∧
      (⟨"Canal2", some "h2"⟩ : Channel) ∈ evTwoLinks.channels) ∧
    ((rojaScrape (some docMergeTime)).map (fun ev => (ev.title, ev.time)) =
      [("20:00", "20:00")] ∧ containsSubS "20:00" "20:00" = true) ∧
    ((rojaScrape (some docChannelAsTitle)).map Event.title = ["CanalX"] ∧
      (rojaScrape (some docChannelAsTitle)).map Event.channels =
        [[⟨"CanalX", some "u"⟩]] ∧
      containsSubS "CanalX" "CanalX" = true) := by
  exact ⟨⟨rfl, by decide⟩, ⟨rfl, by decide, by decide⟩,
         ⟨rfl, by decide⟩, ⟨rfl, rfl, by decide⟩⟩

/-- Claim C4, amended: the extraction excludes the matched time
occurrence from the title span but guarantees no more than that. For
DaddyLive the title is drawn from the block text strictly after the
first occurrence of the time. For the Rojadirecta primary path the
title is a sublist of the part of the serialised anchor markup
strictly before the matched time span. For the Rojadirecta fallback
path the title is the trimmed anchor text with the left-to-right
non-overlapping occurrences of the time string deleted and the
placeholder markup removed. The title may still contain the time
substring, for instance from a second occurrence or from digits glued
together by deletion, and may contain raw channel texts. -/
theorem claim4_title_bounds :
    (∀ (s : Node) (ev : Event), daddyBlockEvent s = some ev →
      ∃ k, pyFind ev.time.data (textOf s) = some k ∧
        InfixOf ev.title.data ((textOf s).drop (k + ev.time.data.length))) ∧
    (∀ (item lnk : Node) (ev : Event) (g1 : List Char) (t : String),
      firstAnchor item = some lnk →
      rojaSearch (renderC lnk) = some (g1, t) →
      rojaItemEvent item = some ev →
      ev.time = t ∧ ev.title.data.Sublist g1 ∧
      ∃ pre rest, renderC lnk = pre ++ g1 ++ spanOpenLit.data ++ t.data ++
        spanCloseLit.data ++ rest) ∧
    (∀ (item lnk : Node) (ev : Event),
      firstAnchor item = some lnk →
      rojaSearch (renderC lnk) = none →
      rojaItemEvent item = some ev →
      ev.time = fallbackTime lnk ∧
      ev.title.data = removeAll (pyStrip (removeAll (pyStrip (textOf lnk))
        ev.time.data)) placeholderLit.data) := by
  refine ⟨?_, ?_, ?_⟩
  · intro s ev h
    obtain ⟨hora, ht, htime, htitle, _, _⟩ := daddyBlockEvent_inv h
    obtain ⟨hh, hinf⟩ := timeSearch_some ht
    have hsome := pyFind_isSome_of_infixOf hinf
    cases hk : pyFind hora.data (textOf s) with
    | none => rw [hk] at hsome; simp at hsome
    | some k =>
      obtain ⟨pre, post, hdec, hlen⟩ := pyFind_some hk
      have hk5 : k + hora.data.length ≤ (textOf s).length := by
        rw [hdec]
        simp only [List.length_append]
        omega
      refine ⟨k, by rw [htime]; exact hk, ?_⟩
      rw [htime, htitle]
      unfold daddyTitle
      have hik : pyIndexD hora.data (textOf s) = k := by simp [pyIndexD, hk]
      rw [hik]
      exact infixOf_trans (pyStrip_infixOf _)
        (pySlice_infixOf_drop (textOf s) (k + hora.data.length) _ hk5)
  · intro item lnk ev g1 t h1 h2 h3
    rw [rojaItemEvent_primary h1 h2] at h3
    have hev := Option.some_inj.mp h3
    obtain ⟨⟨pre, rest, hdec⟩, _⟩ := rojaSearch_some h2
    refine ⟨by rw [← hev], ?_, pre, rest, hdec⟩
    rw [← hev]
    exact (removeAll_sublist (pyStrip g1) placeholderLit.data).trans
      (pyStrip_sublist g1)
  · intro item lnk ev h1 h2 h3
    rw [rojaItemEvent_fallback h1 h2] at h3
    have hev := Option.some_inj.mp h3
    refine ⟨by rw [← hev], ?_⟩
    rw [← hev]

/-- Claim C4, witness: the repeated-time block realises the DaddyLive
part of the amended claim at a concrete input. -/
theorem claim4_witness :
    ∃ k, pyFind evTimeInTitle.time.data (textOf strongTimeInTitle) = some k ∧
      InfixOf evTimeInTitle.title.data
        ((textOf strongTimeInTitle).drop
          (k + evTimeInTitle.time.data.length)) :=
  claim4_title_bounds.1 strongTimeInTitle evTimeInTitle (by decide)

/-! Lemmas for the JSON text layer. -/

theorem skipWs_cons_not_ws {c : Char} (l : List Char)
    (h : isJsonWs c = false) : skipWs (c :: l) = c :: l := by
  simp [skipWs, List.dropWhile_cons, h]

theorem skipWs_append_ws : ∀ (ws l : List Char), ws.all isJsonWs = true →
    skipWs (ws ++ l) = skipWs l := by
  intro ws
  induction ws with
  | nil => intro l _; rfl
  | cons c t ih =>
    intro l hall
    simp only [List.all_cons, Bool.and_eq_true] at hall
    simp only [List.cons_append, skipWs, List.dropWhile_cons, hall.1, if_true]
    exact ih l hall.2

theorem indentSp_all_ws (lvl : Nat) : (indentSp lvl).all isJsonWs = true := by
  simp only [indentSp, List.all_eq_true]
  intro x hx
  rw [List.eq_of_mem_replicate hx]
  decide

theorem parseVal_ws_prefix (fuel : Nat) (ws l : List Char)
    (hws : ws.all isJsonWs = true) :
    parseVal fuel (ws ++ l) = parseVal fuel l := by
  cases fuel with
  | zero => rfl
  | succ f =>
    unfold parseVal
    rw [skipWs_append_ws ws l hws]

theorem parseObjItems_ws_prefix (fuel : Nat) (ws l : List Char)
    (hws : ws.all isJsonWs = true) :
    parseObjItems fuel (ws ++ l) = parseObjItems fuel l := by
  cases fuel with
  | zero => rfl
  | succ f =>
    unfold parseObjItems
    rw [skipWs_append_ws ws l hws]

theorem parseVal_nullB (fuel : Nat) (l r : List Char)
    (h : skipWs l = 'n' :: 'u' :: 'l' :: 'l' :: r) :
    parseVal (fuel + 1) l = some (.null, r) := by
  unfold parseVal
  rw [h]
  simp

theorem parseVal_quote (fuel : Nat) (l rest : List Char)
    (h : skipWs l = '"' :: rest) :
    parseVal (fuel + 1) l =
      (parseStrBody rest).map (fun p => (Json.str ⟨p.1⟩, p.2)) := by
  unfold parseVal
  rw [h]
  simp

theorem parseVal_arrB (fuel : Nat) (l rest : List Char)
    (h : skipWs l = '[' :: rest) :
    parseVal (fuel + 1) l =
      (if headIs ']' (skipWs rest) then some (.arr [], (skipWs rest).tail)
       else (parseArrItems fuel rest).map (fun p => (.arr p.1, p.2))) := by
  unfold parseVal
  rw [h]
  simp

theorem parseVal_objB (fuel : Nat) (l rest : List Char)
    (h : skipWs l = '\x7b' :: rest) :
    parseVal (fuel + 1) l =
      (if headIs '\x7d' (skipWs rest) then some (.obj [], (skipWs rest).tail)
       else (parseObjItems fuel rest).map (fun p => (.obj p.1, p.2))) := by
  unfold parseVal
  rw [h]
  simp

theorem parseArrItems_last {fuel : Nat} {l r r2 : List Char} {x : Json}
    (h1 : parseVal fuel l = some (x, r)) (h2 : skipWs r = ']' :: r2) :
    parseArrItems (fuel + 1) l = some ([x], r2) := by
  conv_lhs => unfold parseArrItems
  rw [h1]
  simp [h2]

theorem parseArrItems_more {fuel : Nat} {l r r2 : List Char} {x : Json}
    (h1 : parseVal fuel l = some (x, r)) (h2 : skipWs r = ',' :: r2) :
    parseArrItems (fuel + 1) l =
      (parseArrItems fuel r2).map (fun p => (x :: p.1, p.2)) := by
  conv_lhs => unfold parseArrItems
  rw [h1]
  simp [h2]

theorem parseObjItems_last {fuel : Nat} {l rest r r2 r3 r4 : List Char}
    {k : List Char} {v : Json}
    (h1 : skipWs l = '"' :: rest) (h2 : parseStrBody rest = some (k, r))
    (h3 : skipWs r = ':' :: r2) (h4 : parseVal fuel r2 = some (v, r3))
    (h5 : skipWs r3 = '\x7d' :: r4) :
    parseObjItems (fuel + 1) l = some ([(⟨k⟩, v)], r4) := by
  conv_lhs => unfold parseObjItems
  rw [h1]
  simp [h2, h3, h4, h5]

theorem parseObjItems_more {fuel : Nat} {l rest r r2 r3 r4 : List Char}
    {k : List Char} {v : Json}
    (h1 : skipWs l = '"' :: rest) (h2 : parseStrBody rest = some (k, r))
    (h3 : skipWs r = ':' :: r2) (h4 : parseVal fuel r2 = some (v, r3))
    (h5 : skipWs r3 = ',' :: r4) :
    parseObjItems (fuel + 1) l =
      (parseObjItems fuel r4).map (fun p => ((⟨k⟩, v) :: p.1, p.2)) := by
  conv_lhs => unfold parseObjItems
  rw [h1]
  simp [h2, h3, h4, h5]

theorem parseStrBodyF_cons (fuel : Nat) (c : Char) (rest : List Char) :
    parseStrBodyF (fuel + 1) (c :: rest) =
      if c = '"' then some ([], rest)
      else if c = '\\' then
        (parseEscape rest).bind (fun er =>
          (parseStrBodyF fuel er.2).map (fun p => (er.1 :: p.1, p.2)))
      else (parseStrBodyF fuel rest).map (fun p => (c :: p.1, p.2)) := rfl

theorem hexVal_hexDigit : ∀ n : Nat, n < 16 → hexVal (hexDigit n) = some n := by
  decide

theorem escapeChar_length (c : Char) : 1 ≤ (escapeChar c).length := by
  unfold escapeChar
  split
  · simp
  split
  · simp
  split
  · simp
  split
  · simp
  split
  · simp
  split
  · simp
  split
  · simp
  split
  · simp
  · simp

theorem escapeStr_length : ∀ k : List Char, k.length ≤ (escapeStr k).length := by
  intro k
  induction k with
  | nil => simp [escapeStr]
  | cons c t ih =>
    have h0 : escapeStr (c :: t) = escapeChar c ++ escapeStr t := rfl
    rw [h0]
    simp only [List.length_cons, List.length_append]
    have := escapeChar_length c
    omega

theorem parseStrBodyF_quote (fuel : Nat) (rest : List Char) :
    parseStrBodyF (fuel + 1) ('"' :: rest) = some ([], rest) := rfl

theorem parseStrBodyF_backslash (fuel : Nat) (rest : List Char) :
    parseStrBodyF (fuel + 1) ('\\' :: rest) =
      (parseEscape rest).bind (fun er =>
        (parseStrBodyF fuel er.2).map (fun p => (er.1 :: p.1, p.2))) := rfl

theorem parseStrBodyF_other (fuel : Nat) (c : Char) (rest : List Char)
    (h1 : c ≠ '"') (h2 : c ≠ '\\') :
    parseStrBodyF (fuel + 1) (c :: rest) =
      (parseStrBodyF fuel rest).map (fun p => (c :: p.1, p.2)) := by
  rw [parseStrBodyF_cons, if_neg h1, if_neg h2]

theorem strBodyF_escape : ∀ (k : List Char) (fuel : Nat) (rest : List Char),
    k.length + 1 ≤ fuel →
    parseStrBodyF fuel (escapeStr k ++ '"' :: rest) = some (k, rest) := by
  intro k
  induction k with
  | nil =>
    intro fuel rest hf
    obtain ⟨f, rfl⟩ : ∃ f, fuel = f + 1 := ⟨fuel - 1, by omega⟩
    exact parseStrBodyF_quote f rest
  | cons c t ih =>
    intro fuel rest hf
    obtain ⟨f, rfl⟩ : ∃ f, fuel = f + 1 := ⟨fuel - 1, by omega⟩
    have hf2 : t.length + 1 ≤ f := by
      simp only [List.length_cons] at hf
      omega
    have hmain := ih f rest hf2
    have h0 : escapeStr (c :: t) ++ '"' :: rest =
        escapeChar c ++ (escapeStr t ++ '"' :: rest) := by
      show (escapeChar c ++ escapeStr t) ++ '"' :: rest = _
      rw [List.append_assoc]
    rw [h0]
    by_cases h1 : c = '"'
    · subst h1
      have he : escapeChar '"' = ['\\', '"'] := rfl
      rw [he]
      simp only [List.cons_append, List.nil_append, parseStrBodyF_backslash]
      have hesc : parseEscape ('"' :: (escapeStr t ++ '"' :: rest)) =
          some ('"', escapeStr t ++ '"' :: rest) := rfl
      rw [hesc]
      simp [hmain]
    · by_cases h2 : c = '\\'
      · subst h2
        have he : escapeChar '\\' = ['\\', '\\'] := rfl
        rw [he]
        simp only [List.cons_append, List.nil_append, parseStrBodyF_backslash]
        have hesc : parseEscape ('\\' :: (escapeStr t ++ '"' :: rest)) =
            some ('\\', escapeStr t ++ '"' :: rest) := rfl
        rw [hesc]
        simp [hmain]
      · by_cases h3 : c = '\x08'
        · subst h3
          rw [show escapeChar '\x08' = ['\\', 'b'] from rfl]
          simp only [List.cons_append, List.nil_append, parseStrBodyF_backslash]
          rw [show parseEscape ('b' :: (escapeStr t ++ '"' :: rest)) =
              some ('\x08', escapeStr t ++ '"' :: rest) from rfl]
          simp [hmain]
        · by_cases h4 : c = '\x09'
          · subst h4
            rw [show escapeChar '\x09' = ['\\', 't'] from rfl]
            simp only [List.cons_append, List.nil_append, parseStrBodyF_backslash]
            rw [show parseEscape ('t' :: (escapeStr t ++ '"' :: rest)) =
                some ('\x09', escapeStr t ++ '"' :: rest) from rfl]
            simp [hmain]
          · by_cases h5 : c = '\x0a'
            · subst h5
              rw [show escapeChar '\x0a' = ['\\', 'n'] from rfl]
              simp only [List.cons_append, List.nil_append,
                parseStrBodyF_backslash]
              rw [show parseEscape ('n' :: (escapeStr t ++ '"' :: rest)) =
                  some ('\x0a', escapeStr t ++ '"' :: rest) from rfl]
              simp [hmain]
            · by_cases h6 : c = '\x0c'
              · subst h6
                rw [show escapeChar '\x0c' = ['\\', 'f'] from rfl]
                simp only [List.cons_append, List.nil_append,
                  parseStrBodyF_backslash]
                rw [show parseEscape ('f' :: (escapeStr t ++ '"' :: rest)) =
                    some ('\x0c', escapeStr t ++ '"' :: rest) from rfl]
                simp [hmain]
              · by_cases h7 : c = '\x0d'
                · subst h7
                  rw [show escapeChar '\x0d' = ['\\', 'r'] from rfl]
                  simp only [List.cons_append, List.nil_append,
                    parseStrBodyF_backslash]
                  rw [show parseEscape ('r' :: (escapeStr t ++ '"' :: rest)) =
                      some ('\x0d', escapeStr t ++ '"' :: rest) from rfl]
                  simp [hmain]
                · by_cases hctrl : c.toNat < 32
                  · have hec : escapeChar c = ['\\', 'u', '0', '0',
                        hexDigit (c.toNat / 16), hexDigit (c.toNat % 16)] := by
                      unfold escapeChar
                      rw [if_neg h1, if_neg h2, if_neg h3, if_neg h4,
                        if_neg h5, if_neg h6, if_neg h7, if_pos hctrl]
                    rw [hec]
                    simp only [List.cons_append, List.nil_append,
                      parseStrBodyF_backslash]
                    have hu : parseEscape ('u' :: '0' :: '0' ::
                        hexDigit (c.toNat / 16) :: hexDigit (c.toNat % 16) ::
                        (escapeStr t ++ '"' :: rest)) =
                        match hexVal '0', hexVal '0',
                          hexVal (hexDigit (c.toNat / 16)),
                          hexVal (hexDigit (c.toNat % 16)) with
                        | some v1, some v2, some v3, some v4 =>
                          some (Char.ofNat (4096 * v1 + 256 * v2 + 16 * v3 + v4),
                                escapeStr t ++ '"' :: rest)
                        | _, _, _, _ => none := rfl
                    rw [hu]
                    rw [show hexVal '0' = some 0 from by decide]
                    rw [hexVal_hexDigit (c.toNat / 16) (by omega)]
                    rw [hexVal_hexDigit (c.toNat % 16) (by omega)]
                    have hn : 4096 * 0 + 256 * 0 + 16 * (c.toNat / 16) +
                        c.toNat % 16 = c.toNat := by omega
                    simp only [hn, Char.ofNat_toNat]
                    simp [hmain]
                  · have hec : escapeChar c = [c] := by
                      unfold escapeChar
                      rw [if_neg h1, if_neg h2, if_neg h3, if_neg h4,
                        if_neg h5, if_neg h6, if_neg h7, if_neg hctrl]
                    rw [hec]
                    simp only [List.cons_append, List.nil_append]
                    rw [parseStrBodyF_other f c _ h1 h2, hmain]
                    rfl

theorem parseStrBody_escape (k : List Char) (rest : List Char) :
    parseStrBody (escapeStr k ++ '"' :: rest) = some (k, rest) := by
  unfold parseStrBody
  apply strBodyF_escape
  have h1 := escapeStr_length k
  simp only [List.length_append, List.length_cons]
  omega

theorem printJson_null (lvl : Nat) :
    printJson .null lvl = ['n', 'u', 'l', 'l'] := rfl

theorem printJson_str (s : String) (lvl : Nat) :
    printJson (.str s) lvl = '"' :: (escapeStr s.data ++ ['"']) := rfl

theorem printJson_arrNil (lvl : Nat) : printJson (.arr []) lvl = ['[', ']'] :=
  rfl

theorem printJson_arrCons (x : Json) (xs : List Json) (lvl : Nat) :
    printJson (.arr (x :: xs)) lvl =
      '[' :: '\n' :: (printArr (x :: xs) (lvl + 1) ++
        '\n' :: (indentSp lvl ++ [']'])) := rfl

theorem printJson_objNil (lvl : Nat) :
    printJson (.obj []) lvl = ['\x7b', '\x7d'] := rfl

theorem printJson_objCons (kv : String × Json) (kvs : List (String × Json))
    (lvl : Nat) :
    printJson (.obj (kv :: kvs)) lvl =
      '\x7b' :: '\n' :: (printObj (kv :: kvs) (lvl + 1) ++
        '\n' :: (indentSp lvl ++ ['\x7d'])) := rfl

theorem printArr_single (x : Json) (lvl : Nat) :
    printArr [x] lvl = indentSp lvl ++ printJson x lvl := rfl

theorem printArr_cons2 (x y : Json) (xs : List Json) (lvl : Nat) :
    printArr (x :: y :: xs) lvl =
      indentSp lvl ++ (printJson x lvl ++
        ',' :: '\n' :: printArr (y :: xs) lvl) := rfl

theorem printObj_single (k : String) (v : Json) (lvl : Nat) :
    printObj [(k, v)] lvl =
      indentSp lvl ++ ('"' :: (escapeStr k.data ++
        '"' :: ':' :: ' ' :: printJson v lvl)) := rfl

theorem printObj_cons2 (k : String) (v : Json) (kv2 : String × Json)
    (kvs : List (String × Json)) (lvl : Nat) :
    printObj ((k, v) :: kv2 :: kvs) lvl =
      indentSp lvl ++ ('"' :: (escapeStr k.data ++
        '"' :: ':' :: ' ' :: (printJson v lvl ++
          ',' :: '\n' :: printObj (kv2 :: kvs) lvl))) := rfl

theorem printJson_head (v : Json) (lvl : Nat) :
    ∃ c cs, printJson v lvl = c :: cs ∧ isJsonWs c = false ∧
      c ≠ ']' ∧ c ≠ '\x7d' := by
  have step : ∀ c cs, isJsonWs c = false → c ≠ ']' → c ≠ '\x7d' →
      ∃ d ds, (c :: cs : List Char) = d :: ds ∧ isJsonWs d = false ∧
        d ≠ ']' ∧ d ≠ '\x7d' :=
    fun c cs h1 h2 h3 => ⟨c, cs, rfl, h1, h2, h3⟩
  cases v with
  | null => exact step 'n' _ (by decide) (by decide) (by decide)
  | str s => exact step '"' _ (by decide) (by decide) (by decide)
  | arr xs =>
    cases xs with
    | nil => exact step '[' _ (by decide) (by decide) (by decide)
    | cons x t => exact step '[' _ (by decide) (by decide) (by decide)
  | obj kvs =>
    cases kvs with
    | nil => exact step '\x7b' _ (by decide) (by decide) (by decide)
    | cons kv t => exact step '\x7b' _ (by decide) (by decide) (by decide)

theorem printArr_decomp (x : Json) (xs : List Json) (lvl : Nat) :
    ∃ tl, printArr (x :: xs) lvl = indentSp lvl ++ (printJson x lvl ++ tl) := by
  cases xs with
  | nil =>
    refine ⟨[], ?_⟩
    rw [printArr_single]
    simp
  | cons y t => exact ⟨',' :: '\n' :: printArr (y :: t) lvl, rfl⟩

theorem printObj_decomp (k : String) (v : Json) (kvs : List (String × Json))
    (lvl : Nat) :
    ∃ tl, printObj ((k, v) :: kvs) lvl =
      indentSp lvl ++ ('"' :: tl) := by
  cases kvs with
  | nil => exact ⟨escapeStr k.data ++ '"' :: ':' :: ' ' :: printJson v lvl, rfl⟩
  | cons kv2 t =>
    exact ⟨escapeStr k.data ++ '"' :: ':' :: ' ' :: (printJson v lvl ++
      ',' :: '\n' :: printObj (kv2 :: t) lvl), rfl⟩

mutual
theorem parse_print : ∀ (v : Json) (lvl : Nat) (rest : List Char) (fuel : Nat),
    fuelJ v ≤ fuel → parseVal fuel (printJson v lvl ++ rest) = some (v, rest)
  | .null, lvl, rest, fuel, hf => by
    obtain ⟨f, rfl⟩ : ∃ f, fuel = f + 1 := ⟨fuel - 1, by
      have : fuelJ .null = 1 := rfl
      omega⟩
    rw [printJson_null]
    simp only [List.cons_append, List.nil_append]
    exact parseVal_nullB f _ rest (skipWs_cons_not_ws _ (by decide))
  | .str s, lvl, rest, fuel, hf => by
    obtain ⟨f, rfl⟩ : ∃ f, fuel = f + 1 := ⟨fuel - 1, by
      have : fuelJ (.str s) = 1 := rfl
      omega⟩
    rw [printJson_str]
    simp only [List.cons_append, List.append_assoc, List.singleton_append]
    rw [parseVal_quote f _ _ (skipWs_cons_not_ws _ (by decide))]
    rw [parseStrBody_escape]
    rfl
  | .arr [], lvl, rest, fuel, hf => by
    obtain ⟨f, rfl⟩ : ∃ f, fuel = f + 1 := ⟨fuel - 1, by
      have : fuelJ (.arr []) = 1 := rfl
      omega⟩
    rw [printJson_arrNil]
    simp only [List.cons_append, List.nil_append]
    rw [parseVal_arrB f _ (']' :: rest) (skipWs_cons_not_ws _ (by decide))]
    rw [skipWs_cons_not_ws _ (by decide : isJsonWs ']' = false)]
    rfl
  | .arr (x :: xs), lvl, rest, fuel, hf => by
    obtain ⟨f, rfl⟩ : ∃ f, fuel = f + 1 := ⟨fuel - 1, by
      have : fuelJ (.arr (x :: xs)) = 1 + fuelL (x :: xs) := rfl
      omega⟩
    have hf2 : fuelL (x :: xs) ≤ f := by
      have : fuelJ (.arr (x :: xs)) = 1 + fuelL (x :: xs) := rfl
      omega
    have hl : printJson (.arr (x :: xs)) lvl ++ rest =
        '[' :: ('\n' :: (printArr (x :: xs) (lvl + 1) ++
          ('\n' :: (indentSp lvl ++ (']' :: rest))))) := by
      rw [printJson_arrCons]
      simp [List.cons_append, List.append_assoc]
    rw [hl]
    rw [parseVal_arrB f _ _ (skipWs_cons_not_ws _ (by decide))]
    obtain ⟨tl, hpa⟩ := printArr_decomp x xs (lvl + 1)
    obtain ⟨c, cs, hpj, hcws, hcne1, _⟩ := printJson_head x (lvl + 1)
    have hskip : skipWs ('\n' :: (printArr (x :: xs) (lvl + 1) ++
        ('\n' :: (indentSp lvl ++ (']' :: rest))))) =
        c :: (cs ++ (tl ++ ('\n' :: (indentSp lvl ++ (']' :: rest))))) := by
      rw [hpa, hpj]
      have h1 : '\n' :: ((indentSp (lvl + 1) ++ ((c :: cs) ++ tl)) ++
          ('\n' :: (indentSp lvl ++ (']' :: rest)))) =
          ('\n' :: indentSp (lvl + 1)) ++ (c ::
            (cs ++ (tl ++ ('\n' :: (indentSp lvl ++ (']' :: rest)))))) := by
        simp [List.cons_append, List.append_assoc]
      rw [h1, skipWs_append_ws _ _ (by
        simp [List.all_cons, indentSp_all_ws]
        decide)]
      exact skipWs_cons_not_ws _ hcws
    rw [hskip]
    have hhead : headIs ']' (c :: (cs ++ (tl ++ ('\n' ::
        (indentSp lvl ++ (']' :: rest)))))) = false := by
      simp [headIs, hcne1]
    rw [hhead]
    simp only [Bool.false_eq_true, if_false]
    rw [show ('\n' :: (printArr (x :: xs) (lvl + 1) ++
        ('\n' :: (indentSp lvl ++ (']' :: rest))))) =
        ['\n'] ++ (printArr (x :: xs) (lvl + 1) ++
          ('\n' :: (indentSp lvl ++ (']' :: rest)))) from rfl]
    rw [parse_printArr x xs (lvl + 1) lvl ['\n'] rest f (by decide) hf2]
    rfl
  | .obj [], lvl, rest, fuel, hf => by
    obtain ⟨f, rfl⟩ : ∃ f, fuel = f + 1 := ⟨fuel - 1, by
      have : fuelJ (.obj []) = 1 := rfl
      omega⟩
    rw [printJson_objNil]
    simp only [List.cons_append, List.nil_append]
    rw [parseVal_objB f _ ('\x7d' :: rest) (skipWs_cons_not_ws _ (by decide))]
    rw [skipWs_cons_not_ws _ (by decide : isJsonWs '\x7d' = false)]
    rfl
  | .obj ((k, v0) :: kvs), lvl, rest, fuel, hf => by
    obtain ⟨f, rfl⟩ : ∃ f, fuel = f + 1 := ⟨fuel - 1, by
      have : fuelJ (.obj ((k, v0) :: kvs)) = 1 + fuelO ((k, v0) :: kvs) := rfl
      omega⟩
    have hf2 : fuelO ((k, v0) :: kvs) ≤ f := by
      have : fuelJ (.obj ((k, v0) :: kvs)) = 1 + fuelO ((k, v0) :: kvs) := rfl
      omega
    have hl : printJson (.obj ((k, v0) :: kvs)) lvl ++ rest =
        '\x7b' :: ('\n' :: (printObj ((k, v0) :: kvs) (lvl + 1) ++
          ('\n' :: (indentSp lvl ++ ('\x7d' :: rest))))) := by
      rw [printJson_objCons]
      simp [List.cons_append, List.append_assoc]
    rw [hl]
    rw [parseVal_objB f _ _ (skipWs_cons_not_ws _ (by decide))]
    obtain ⟨tl, hpo⟩ := printObj_decomp k v0 kvs (lvl + 1)
    have hskip : skipWs ('\n' :: (printObj ((k, v0) :: kvs) (lvl + 1) ++
        ('\n' :: (indentSp lvl ++ ('\x7d' :: rest))))) =
        '"' :: (tl ++ ('\n' :: (indentSp lvl ++ ('\x7d' :: rest)))) := by
      rw [hpo]
      have h1 : '\n' :: ((indentSp (lvl + 1) ++ ('"' :: tl)) ++
          ('\n' :: (indentSp lvl ++ ('\x7d' :: rest)))) =
          ('\n' :: indentSp (lvl + 1)) ++ ('"' ::
            (tl ++ ('\n' :: (indentSp lvl ++ ('\x7d' :: rest))))) := by
        simp [List.cons_append, List.append_assoc]
      rw [h1, skipWs_append_ws _ _ (by
        simp [List.all_cons, indentSp_all_ws]
        decide)]
      exact skipWs_cons_not_ws _ (by decide)
    rw [hskip]
    have hhead : headIs '\x7d' ('"' :: (tl ++ ('\n' ::
        (indentSp lvl ++ ('\x7d' :: rest))))) = false := by
      simp [headIs]
    rw [hhead]
    simp only [Bool.false_eq_true, if_false]
    rw [show ('\n' :: (printObj ((k, v0) :: kvs) (lvl + 1) ++
        ('\n' :: (indentSp lvl ++ ('\x7d' :: rest))))) =
        ['\n'] ++ (printObj ((k, v0) :: kvs) (lvl + 1) ++
          ('\n' :: (indentSp lvl ++ ('\x7d' :: rest)))) from rfl]
    rw [parse_printObj k v0 kvs (lvl + 1) lvl ['\n'] rest f (by decide) hf2]
    rfl
termination_by v _ _ _ _ => sizeOf v

theorem parse_printArr : ∀ (x : Json) (xs : List Json) (lvl lvl2 : Nat)
    (ws rest : List Char) (fuel : Nat), ws.all isJsonWs = true →
    fuelL (x :: xs) ≤ fuel →
    parseArrItems fuel (ws ++ (printArr (x :: xs) lvl ++
      ('\n' :: (indentSp lvl2 ++ (']' :: rest))))) = some (x :: xs, rest)
  | x, [], lvl, lvl2, ws, rest, fuel, hws, hf => by
    obtain ⟨f, rfl⟩ : ∃ f, fuel = f + 1 := ⟨fuel - 1, by
      have : fuelL [x] = 1 + fuelJ x + 0 := rfl
      omega⟩
    have hfx : fuelJ x ≤ f := by
      have : fuelL [x] = 1 + fuelJ x + 0 := rfl
      omega
    have hin : ws ++ (printArr [x] lvl ++
        ('\n' :: (indentSp lvl2 ++ (']' :: rest)))) =
        (ws ++ indentSp lvl) ++ (printJson x lvl ++
          ('\n' :: (indentSp lvl2 ++ (']' :: rest)))) := by
      rw [printArr_single]
      simp [List.append_assoc]
    have h1 : parseVal f (ws ++ (printArr [x] lvl ++
        ('\n' :: (indentSp lvl2 ++ (']' :: rest))))) =
        some (x, '\n' :: (indentSp lvl2 ++ (']' :: rest))) := by
      rw [hin, parseVal_ws_prefix f _ _ (by simp [List.all_append, hws,
        indentSp_all_ws])]
      exact parse_print x lvl _ f hfx
    have h2 : skipWs ('\n' :: (indentSp lvl2 ++ (']' :: rest))) =
        ']' :: rest := by
      have he : '\n' :: (indentSp lvl2 ++ (']' :: rest)) =
          ('\n' :: indentSp lvl2) ++ (']' :: rest) := by
        simp [List.cons_append]
      rw [he, skipWs_append_ws _ _ (by
        simp [List.all_cons, indentSp_all_ws]
        decide)]
      exact skipWs_cons_not_ws _ (by decide)
    exact parseArrItems_last h1 h2
  | x, y :: t, lvl, lvl2, ws, rest, fuel, hws, hf => by
    obtain ⟨f, rfl⟩ : ∃ f, fuel = f + 1 := ⟨fuel - 1, by
      have : fuelL (x :: y :: t) = 1 + fuelJ x + fuelL (y :: t) := rfl
      omega⟩
    have hfx : fuelJ x ≤ f := by
      have : fuelL (x :: y :: t) = 1 + fuelJ x + fuelL (y :: t) := rfl
      omega
    have hfr : fuelL (y :: t) ≤ f := by
      have : fuelL (x :: y :: t) = 1 + fuelJ x + fuelL (y :: t) := rfl
      omega
    have hin : ws ++ (printArr (x :: y :: t) lvl ++
        ('\n' :: (indentSp lvl2 ++ (']' :: rest)))) =
        (ws ++ indentSp lvl) ++ (printJson x lvl ++
          (',' :: ('\n' :: (printArr (y :: t) lvl ++
            ('\n' :: (indentSp lvl2 ++ (']' :: rest))))))) := by
      rw [printArr_cons2]
      simp [List.append_assoc, List.cons_append]
    have h1 : parseVal f (ws ++ (printArr (x :: y :: t) lvl ++
        ('\n' :: (indentSp lvl2 ++ (']' :: rest))))) =
        some (x, ',' :: ('\n' :: (printArr (y :: t) lvl ++
          ('\n' :: (indentSp lvl2 ++ (']' :: rest)))))) := by
      rw [hin, parseVal_ws_prefix f _ _ (by simp [List.all_append, hws,
        indentSp_all_ws])]
      exact parse_print x lvl _ f hfx
    have h2 : skipWs (',' :: ('\n' :: (printArr (y :: t) lvl ++
        ('\n' :: (indentSp lvl2 ++ (']' :: rest)))))) =
        ',' :: ('\n' :: (printArr (y :: t) lvl ++
          ('\n' :: (indentSp lvl2 ++ (']' :: rest))))) :=
      skipWs_cons_not_ws _ (by decide)
    rw [parseArrItems_more h1 h2]
    rw [show ('\n' :: (printArr (y :: t) lvl ++
        ('\n' :: (indentSp lvl2 ++ (']' :: rest))))) =
        ['\n'] ++ (printArr (y :: t) lvl ++
          ('\n' :: (indentSp lvl2 ++ (']' :: rest)))) from rfl]
    rw [parse_printArr y t lvl lvl2 ['\n'] rest f (by decide) hfr]
    rfl
termination_by x xs _ _ _ _ _ _ _ => 1 + sizeOf x + sizeOf xs

theorem parse_printObj : ∀ (k : String) (v : Json)
    (kvs : List (String × Json)) (lvl lvl2 : Nat) (ws rest : List Char)
    (fuel : Nat), ws.all isJsonWs = true → fuelO ((k, v) :: kvs) ≤ fuel →
    parseObjItems fuel (ws ++ (printObj ((k, v) :: kvs) lvl ++
      ('\n' :: (indentSp lvl2 ++ ('\x7d' :: rest))))) =
      some ((k, v) :: kvs, rest)
  | k, v, [], lvl, lvl2, ws, rest, fuel, hws, hf => by
    obtain ⟨f, rfl⟩ : ∃ f, fuel = f + 1 := ⟨fuel - 1, by
      have : fuelO [(k, v)] = 1 + fuelJ v + 0 := rfl
      omega⟩
    have hfv : fuelJ v ≤ f := by
      have : fuelO [(k, v)] = 1 + fuelJ v + 0 := rfl
      omega
    have hin : ws ++ (printObj [(k, v)] lvl ++
        ('\n' :: (indentSp lvl2 ++ ('\x7d' :: rest)))) =
        (ws ++ indentSp lvl) ++ ('"' :: (escapeStr k.data ++
          ('"' :: (':' :: (' ' :: (printJson v lvl ++
            ('\n' :: (indentSp lvl2 ++ ('\x7d' :: rest))))))))) := by
      rw [printObj_single]
      simp [List.append_assoc, List.cons_append]
    rw [hin]
    have h1 : skipWs ((ws ++ indentSp lvl) ++ ('"' :: (escapeStr k.data ++
        ('"' :: (':' :: (' ' :: (printJson v lvl ++
          ('\n' :: (indentSp lvl2 ++ ('\x7d' :: rest)))))))))) =
        '"' :: (escapeStr k.data ++
          ('"' :: (':' :: (' ' :: (printJson v lvl ++
            ('\n' :: (indentSp lvl2 ++ ('\x7d' :: rest)))))))) := by
      rw [skipWs_append_ws _ _ (by simp [List.all_append, hws,
        indentSp_all_ws])]
      exact skipWs_cons_not_ws _ (by decide)
    have h2 : parseStrBody (escapeStr k.data ++
        ('"' :: (':' :: (' ' :: (printJson v lvl ++
          ('\n' :: (indentSp lvl2 ++ ('\x7d' :: rest)))))))) =
        some (k.data, ':' :: (' ' :: (printJson v lvl ++
          ('\n' :: (indentSp lvl2 ++ ('\x7d' :: rest)))))) :=
      parseStrBody_escape k.data _
    have h3 : skipWs (':' :: (' ' :: (printJson v lvl ++
        ('\n' :: (indentSp lvl2 ++ ('\x7d' :: rest)))))) =
        ':' :: (' ' :: (printJson v lvl ++
          ('\n' :: (indentSp lvl2 ++ ('\x7d' :: rest))))) :=
      skipWs_cons_not_ws _ (by decide)
    have h4 : parseVal f (' ' :: (printJson v lvl ++
        ('\n' :: (indentSp lvl2 ++ ('\x7d' :: rest))))) =
        some (v, '\n' :: (indentSp lvl2 ++ ('\x7d' :: rest))) := by
      have he : ' ' :: (printJson v lvl ++
          ('\n' :: (indentSp lvl2 ++ ('\x7d' :: rest)))) =
          [' '] ++ (printJson v lvl ++
            ('\n' :: (indentSp lvl2 ++ ('\x7d' :: rest)))) := rfl
      rw [he, parseVal_ws_prefix f _ _ (by decide)]
      exact parse_print v lvl _ f hfv
    have h5 : skipWs ('\n' :: (indentSp lvl2 ++ ('\x7d' :: rest))) =
        '\x7d' :: rest := by
      have he : '\n' :: (indentSp lvl2 ++ ('\x7d' :: rest)) =
          ('\n' :: indentSp lvl2) ++ ('\x7d' :: rest) := by
        simp [List.cons_append]
      rw [he, skipWs_append_ws _ _ (by
        simp [List.all_cons, indentSp_all_ws]
        decide)]
      exact skipWs_cons_not_ws _ (by decide)
    rw [parseObjItems_last h1 h2 h3 h4 h5]
  | k, v, (k2, v2) :: kvs, lvl, lvl2, ws, rest, fuel, hws, hf => by
    obtain ⟨f, rfl⟩ : ∃ f, fuel = f + 1 := ⟨fuel - 1, by
      have : fuelO ((k, v) :: (k2, v2) :: kvs) =
          1 + fuelJ v + fuelO ((k2, v2) :: kvs) := rfl
      omega⟩
    have hfv : fuelJ v ≤ f := by
      have : fuelO ((k, v) :: (k2, v2) :: kvs) =
          1 + fuelJ v + fuelO ((k2, v2) :: kvs) := rfl
      omega
    have hfr : fuelO ((k2, v2) :: kvs) ≤ f := by
      have : fuelO ((k, v) :: (k2, v2) :: kvs) =
          1 + fuelJ v + fuelO ((k2, v2) :: kvs) := rfl
      omega
    have hin : ws ++ (printObj ((k, v) :: (k2, v2) :: kvs) lvl ++
        ('\n' :: (indentSp lvl2 ++ ('\x7d' :: rest)))) =
        (ws ++ indentSp lvl) ++ ('"' :: (escapeStr k.data ++
          ('"' :: (':' :: (' ' :: (printJson v lvl ++
            (',' :: ('\n' :: (printObj ((k2, v2) :: kvs) lvl ++
              ('\n' :: (indentSp lvl2 ++ ('\x7d' :: rest)))))))))))) := by
      rw [printObj_cons2]
      simp [List.append_assoc, List.cons_append]
    rw [hin]
    have h1 : skipWs ((ws ++ indentSp lvl) ++ ('"' :: (escapeStr k.data ++
        ('"' :: (':' :: (' ' :: (printJson v lvl ++
          (',' :: ('\n' :: (printObj ((k2, v2) :: kvs) lvl ++
            ('\n' :: (indentSp lvl2 ++ ('\x7d' :: rest))))))))))))) =
        '"' :: (escapeStr k.data ++
          ('"' :: (':' :: (' ' :: (printJson v lvl ++
            (',' :: ('\n' :: (printObj ((k2, v2) :: kvs) lvl ++
              ('\n' :: (indentSp lvl2 ++ ('\x7d' :: rest))))))))))) := by
      rw [skipWs_append_ws _ _ (by simp [List.all_append, hws,
        indentSp_all_ws])]
      exact skipWs_cons_not_ws _ (by decide)
    have h2 : parseStrBody (escapeStr k.data ++
        ('"' :: (':' :: (' ' :: (printJson v lvl ++
          (',' :: ('\n' :: (printObj ((k2, v2) :: kvs) lvl ++
            ('\n' :: (indentSp lvl2 ++ ('\x7d' :: rest))))))))))) =
        some (k.data, ':' :: (' ' :: (printJson v lvl ++
          (',' :: ('\n' :: (printObj ((k2, v2) :: kvs) lvl ++
            ('\n' :: (indentSp lvl2 ++ ('\x7d' :: rest))))))))) :=
      parseStrBody_escape k.data _
    have h3 : skipWs (':' :: (' ' :: (printJson v lvl ++
        (',' :: ('\n' :: (printObj ((k2, v2) :: kvs) lvl ++
          ('\n' :: (indentSp lvl2 ++ ('\x7d' :: rest))))))))) =
        ':' :: (' ' :: (printJson v lvl ++
          (',' :: ('\n' :: (printObj ((k2, v2) :: kvs) lvl ++
            ('\n' :: (indentSp lvl2 ++ ('\x7d' :: rest)))))))) :=
      skipWs_cons_not_ws _ (by decide)
    have h4 : parseVal f (' ' :: (printJson v lvl ++
        (',' :: ('\n' :: (printObj ((k2, v2) :: kvs) lvl ++
          ('\n' :: (indentSp lvl2 ++ ('\x7d' :: rest)))))))) =
        some (v, ',' :: ('\n' :: (printObj ((k2, v2) :: kvs) lvl ++
          ('\n' :: (indentSp lvl2 ++ ('\x7d' :: rest)))))) := by
      have he : ' ' :: (printJson v lvl ++
          (',' :: ('\n' :: (printObj ((k2, v2) :: kvs) lvl ++
            ('\n' :: (indentSp lvl2 ++ ('\x7d' :: rest))))))) =
          [' '] ++ (printJson v lvl ++
            (',' :: ('\n' :: (printObj ((k2, v2) :: kvs) lvl ++
              ('\n' :: (indentSp lvl2 ++ ('\x7d' :: rest))))))) := rfl
      rw [he, parseVal_ws_prefix f _ _ (by decide)]
      exact parse_print v lvl _ f hfv
    have h5 : skipWs (',' :: ('\n' :: (printObj ((k2, v2) :: kvs) lvl ++
        ('\n' :: (indentSp lvl2 ++ ('\x7d' :: rest)))))) =
        ',' :: ('\n' :: (printObj ((k2, v2) :: kvs) lvl ++
          ('\n' :: (indentSp lvl2 ++ ('\x7d' :: rest))))) :=
      skipWs_cons_not_ws _ (by decide)
    rw [parseObjItems_more h1 h2 h3 h4 h5]
    rw [show ('\n' :: (printObj ((k2, v2) :: kvs) lvl ++
        ('\n' :: (indentSp lvl2 ++ ('\x7d' :: rest))))) =
        ['\n'] ++ (printObj ((k2, v2) :: kvs) lvl ++
          ('\n' :: (indentSp lvl2 ++ ('\x7d' :: rest)))) from rfl]
    rw [parse_printObj k2 v2 kvs lvl lvl2 ['\n'] rest f (by decide) hfr]
    rfl
termination_by _ v kvs _ _ _ _ _ _ _ => 1 + sizeOf v + sizeOf kvs
end

mutual
/-- The printed form of a value is at least as long as the fuel its
parse consumes. -/
theorem fuelJ_le_print : ∀ (v : Json) (lvl : Nat),
    fuelJ v ≤ (printJson v lvl).length
  | .null, _ => by simp [fuelJ, printJson]
  | .str s, _ => by simp [fuelJ, printJson]
  | .arr [], _ => by simp [fuelJ, fuelL, printJson]
  | .arr (x :: xs), lvl => by
    have h := fuelL_le_printArr x xs (lvl + 1)
    have e : fuelJ (.arr (x :: xs)) = 1 + fuelL (x :: xs) := rfl
    rw [e]
    simp only [printJson, List.length_cons, List.length_append]
    omega
  | .obj [], _ => by simp [fuelJ, fuelO, printJson]
  | .obj (kv :: kvs), lvl => by
    have h := fuelO_le_printObj kv kvs (lvl + 1)
    have e : fuelJ (.obj (kv :: kvs)) = 1 + fuelO (kv :: kvs) := rfl
    rw [e]
    simp only [printJson, List.length_cons, List.length_append]
    omega
termination_by v _ => sizeOf v

/-- Fuel bound for a nonempty array body. -/
theorem fuelL_le_printArr : ∀ (x : Json) (xs : List Json) (lvl : Nat),
    fuelL (x :: xs) ≤ (printArr (x :: xs) lvl).length + 1
  | x, [], lvl => by
    have h := fuelJ_le_print x lvl
    have e : fuelL [x] = 1 + fuelJ x + fuelL [] := rfl
    have e0 : fuelL ([] : List Json) = 0 := rfl
    rw [e, e0]
    simp only [printArr, List.length_append]
    omega
  | x, y :: t, lvl => by
    have h1 := fuelJ_le_print x lvl
    have h2 := fuelL_le_printArr y t lvl
    have e : fuelL (x :: y :: t) = 1 + fuelJ x + fuelL (y :: t) := rfl
    rw [e]
    simp only [printArr, List.length_append, List.length_cons]
    omega
termination_by x xs _ => 1 + sizeOf x + sizeOf xs

/-- Fuel bound for a nonempty object body. -/
theorem fuelO_le_printObj : ∀ (kv : String × Json)
    (kvs : List (String × Json)) (lvl : Nat),
    fuelO (kv :: kvs) ≤ (printObj (kv :: kvs) lvl).length + 1
  | (k, v), [], lvl => by
    have h := fuelJ_le_print v lvl
    have e : fuelO [(k, v)] = 1 + fuelJ v + fuelO [] := rfl
    have e0 : fuelO ([] : List (String × Json)) = 0 := rfl
    rw [e, e0]
    simp only [printObj, List.length_append, List.length_cons]
    omega
  | (k, v), kv2 :: kvs, lvl => by
    have h1 := fuelJ_le_print v lvl
    have h2 := fuelO_le_printObj kv2 kvs lvl
    have e : fuelO ((k, v) :: kv2 :: kvs) =
        1 + fuelJ v + fuelO (kv2 :: kvs) := rfl
    rw [e]
    simp only [printObj, List.length_append, List.length_cons]
    omega
termination_by kv kvs _ => sizeOf kv + sizeOf kvs
end

/-- Dumping any value and re-parsing the text recovers the value: the
document fuel, one more than the text length, always suffices. -/
theorem parseJsonText_printJson (v : Json) :
    parseJsonText ⟨printJson v 0⟩ = some v := by
  unfold parseJsonText
  have hf : fuelJ v ≤ (printJson v 0).length + 1 :=
    (fuelJ_le_print v 0).trans (Nat.le_succ _)
  have hp := parse_print v 0 [] ((printJson v 0).length + 1) hf
  rw [List.append_nil] at hp
  show (match parseVal ((printJson v 0).length + 1) (printJson v 0) with
    | some (v, rest) => if skipWs rest = [] then some v else none
    | none => none) = some v
  rw [hp]
  rfl

/-- Claim C9: serialising any results map with the exporter (the text
of json.dump with indent four, ensure_ascii off: non-ASCII characters
kept verbatim) and re-parsing the produced text yields exactly the
encoded syntax tree, and decoding that tree returns exactly the
original map: keys in insertion order, event arrays in extraction
order, empty grouping labels, the unspecified-time sentinel and null
channel urls all preserved. -/
theorem claim9_json_roundtrip (rs : List (String × List Event)) :
    parseJsonText (jsonDumps rs) = some (resultsToJson rs) ∧
    jsonToResults (resultsToJson rs) = some rs :=
  ⟨parseJsonText_printJson (resultsToJson rs),
    jsonToResults_resultsToJson rs⟩
